import Mathlib

/-!
# Journal: the document, image cache and word wrap of `render.cpp`

A shallow embedding of the document and resource core of `src/src/render.cpp`
(the page list with its two-page spread cursor, the reference counted image
cache, the greedy word wrap) and theorems about it.

Conventions of the embedding.

* A `std::string` is the list of its bytes, each byte a natural number
  (`0 .. 255`; nothing below depends on the upper bound).  The C string of a
  text is the part before its first NUL byte: the text buffers of the program
  are resized to powers of two and are NUL padded, and the source reads them
  through `c_str ()`.
* `std::isspace` and `std::iscntrl` are the classifications of the "C" locale on
  the byte value; a byte of `0x80` or more is in neither class.
* `journal_t`, `page_t` and `image_t` are declared in `sse-journal.hpp`, which is
  not among the sources; their members are taken from the way `render.cpp` uses
  them.
-/

namespace Journal

/-! ## Texts -/

/-- The bytes of a `std::string`. -/
abbrev Text := List Nat

/-- The bytes that `s.c_str ()` shows to `strlen` and to a `char const*` loop:
everything before the first NUL byte. -/
def c_str : Text → Text
  | [] => []
  | b :: rest => if b = 0 then [] else b :: c_str rest

/-- The number `std::strlen (s.c_str ())`. -/
def strlen (s : Text) : Nat := (c_str s).length

/-- The test `std::isspace` in the "C" locale: space, `\t`, `\n`, `\v`, `\f`, `\r`. -/
def isspace (b : Nat) : Bool := b == 32 || (9 ≤ b && b ≤ 13)

/-- The test `std::iscntrl` in the "C" locale: `0x00 .. 0x1F` and `0x7F`. -/
def iscntrl (b : Nat) : Bool := b < 32 || b == 127

/-- The function `visible_symbols` (render.cpp:822): walks the C string and
answers true at the first byte that is neither a space nor a control character. -/
def visible_symbols : Text → Bool
  | [] => false
  | b :: rest =>
    if b = 0 then false
    else if b != 32 && !iscntrl b then true
    else visible_symbols rest

/-! ## Pages and the book -/

/-- A rectangle of an image binding (`std::array<float, 4>`); the coordinates are
only stored and handed to the renderer, never computed with. -/
structure Rect where
  x0 : Rat
  y0 : Rat
  x1 : Rat
  y1 : Rat
deriving DecidableEq, Repr

/-- The per page image binding `image_t`.  The member `ref` is the resident
texture (`ID3D11ShaderResourceView*`), `0` standing for `nullptr`. -/
structure image_t where
  ref : Nat
  uv : Rect
  xy : Rect
  tint : Nat
  background : Bool
deriving DecidableEq, Repr

/-- Modelled from the spec: the member initialisers of `image_t` are in the
absent header `sse-journal.hpp`, and the spec names a default state without
giving it.  A fresh binding has no image; the other values (whole texture, whole
page, white, no background) stand for that default, and no theorem rests on them. -/
def image_t.blank : image_t :=
  { ref := 0, uv := ⟨0, 0, 1, 1⟩, xy := ⟨0, 0, 1, 1⟩, tint := 4294967295, background := false }

/-- One leaf of the book, `page_t`. -/
structure page_t where
  title : Text
  content : Text
  image : image_t
deriving DecidableEq, Repr

/-- The value `page_t {}`: empty title and content, a fresh image binding. -/
def page_t.blank : page_t := { title := [], content := [], image := image_t.blank }

/-- The modulus of `unsigned` arithmetic, `2 ^ 32`. -/
def UINT_MOD : Nat := 4294967296

/-- The document part of `journal_t`: the pages and the index of the left page of
the spread on display. -/
structure journal_t where
  pages : List page_t
  current_page : Nat
deriving DecidableEq, Repr

/-- The call `pages.resize (n)`: cut to `n` pages or pad with `page_t {}`. -/
def resize (pages : List page_t) (n : Nat) : List page_t :=
  pages.take n ++ List.replicate (n - pages.length) page_t.blank

/-! The cursor `journal.current_page` is compared with `pages.size ()` without a
cast, where the `int` counters of the file (`selection`, `ndx`, `varsel`) are
cast first: it is an unsigned counter, and sums and differences on it wrap.  Its
declaration is in the absent header, so the operations below take the modulus
`m` of its type as their first argument (`UINT_MOD` for `unsigned`). -/

/-- The unsigned sum `a + b` modulo `m`. -/
def uadd (m a b : Nat) : Nat := (a + b) % m

/-- The unsigned decrement `a--` modulo `m`. -/
def udec (m a : Nat) : Nat := (a + (m - 1)) % m

/-- The end of `setup` (render.cpp:94): `background_ok` is the outcome of loading
the background texture (on failure `setup` returns false before any book is
loaded and the journal is never shown); `loaded` is the journal as
`load_book (default_book)` left it.  The page list is brought to two pages at
least and the cursor is reset when `current_page + 2 >= pages.size ()`. -/
def setup (m : Nat) (background_ok : Bool) (loaded : journal_t) : Option journal_t :=
  if !background_ok then none
  else
    let pages := if loaded.pages.length < 3 then resize loaded.pages 2 else loaded.pages
    let cur := if uadd m loaded.current_page 2 ≥ pages.length then 0 else loaded.current_page
    some { pages := pages, current_page := cur }

/-- The function `previous_page` (render.cpp:990). -/
def previous_page (m : Nat) (j : journal_t) : journal_t :=
  if j.current_page > 0 then { j with current_page := udec m j.current_page } else j

/-- The condition of `next_page` on the last page of the book,
`visible_symbols (pages.back ().title) || visible_symbols (pages.back ().content)`. -/
def back_visible (pages : List page_t) : Bool :=
  match pages.getLast? with
  | none => false
  | some p => visible_symbols p.title || visible_symbols p.content

/-- The function `next_page` (render.cpp:999). -/
def next_page (m : Nat) (j : journal_t) : journal_t :=
  if uadd m j.current_page 2 < j.pages.length then
    { j with current_page := uadd m j.current_page 1 }
  else if uadd m j.current_page 2 = j.pages.length then
    if back_visible j.pages then
      { pages := j.pages ++ [page_t.blank], current_page := uadd m j.current_page 1 }
    else j
  else j

/-- The click on a chapter in `draw_chapters` (render.cpp:853): `selection` is
the index the list box has just stored, that of a page; the `int` `ndx` is
converted to the type of the cursor. -/
def select_chapter (m : Nat) (selection : Nat) (j : journal_t) : journal_t :=
  let ndx : Int :=
    if (selection : Int) + 1 = j.pages.length then (selection : Int) - 1 else selection
  { j with current_page := (ndx % (m : Int)).toNat }

/-- The loop `while (current_page + 2 > pages.size ()) current_page--` of
`draw_chapters` (render.cpp:897), by recursion on the cursor.  At cursor `0` the
loop stops when `2 <= size`; `none` stands for the decrement of `0`, which wraps. -/
def adjust_cursor (m size : Nat) : Nat → Option Nat
  | 0 => if uadd m 0 2 > size then none else some 0
  | c + 1 => if uadd m (c + 1) 2 > size then adjust_cursor m size c else some (c + 1)

/-- The block `if (adjust)` of `draw_chapters` (render.cpp:893). -/
def adjust (m : Nat) (j : journal_t) : Option journal_t :=
  let pages := if j.pages.length < 2 then resize j.pages 2 else j.pages
  (adjust_cursor m pages.length j.current_page).map fun c =>
    { pages := pages, current_page := c }

/-- The guard `selection >= 0 && selection < int (pages.size ())` of the three
chapter buttons; `selection` is the static `int` of `draw_chapters`, `-1` when
nothing was ever selected. -/
def selection_valid (selection : Int) (j : journal_t) : Bool :=
  decide (0 ≤ selection) && decide (selection < (j.pages.length : Int))

/-- The button "Insert before" of `draw_chapters` (render.cpp:866). -/
def insert_before (m : Nat) (selection : Int) (j : journal_t) : Option journal_t :=
  if selection_valid selection j then
    let pos := selection.toNat
    adjust m { j with pages := j.pages.take pos ++ page_t.blank :: j.pages.drop pos }
  else some j

/-- The button "Insert after" of `draw_chapters` (render.cpp:872). -/
def insert_after (m : Nat) (selection : Int) (j : journal_t) : Option journal_t :=
  if selection_valid selection j then
    let pos := selection.toNat + 1
    adjust m { j with pages := j.pages.take pos ++ page_t.blank :: j.pages.drop pos }
  else some j

/-- The button "Delete" of `draw_chapters` followed by "Are you sure?"
(render.cpp:878): the popup opens under the guard, its button erases the page. -/
def delete_page (m : Nat) (selection : Int) (j : journal_t) : Option journal_t :=
  if selection_valid selection j then
    adjust m { j with pages := j.pages.eraseIdx selection.toNat }
  else some j

/-- The spread invariant: two pages at least, and the spread
`pages[current_page]`, `pages[current_page + 1]` inside the book. -/
def spread_inv (j : journal_t) : Prop :=
  2 ≤ j.pages.length ∧ 0 ≤ j.current_page ∧ j.current_page + 2 ≤ j.pages.length

instance (j : journal_t) : Decidable (spread_inv j) := by
  unfold spread_inv; infer_instance

/-! ## The image cache -/

/-- The value type `journal_t::image_source_t` of the cache: how many bindings
share the texture, and the file it was read from.  The counter is a natural
number and `++refcount` is `+ 1`: exact while the count stays below `2 ^ 32 - 1`. -/
structure image_source_t where
  refcount : Nat
  file : String
deriving DecidableEq, Repr

/-- The cache `journal.images`, a `std::map` from the resident texture to its
source: the list of its entries in key order. -/
abbrev images_t := List (Nat × image_source_t)

/-- The lookup `journal.images.find (ref)`. -/
def find_ref (images : images_t) (ref : Nat) : Option (Nat × image_source_t) :=
  images.find? fun kv => kv.1 == ref

/-- The search `std::find_if (..., kv.second.file == file)`: the first entry, in
key order, read from `file`. -/
def find_file (images : images_t) (file : String) : Option (Nat × image_source_t) :=
  images.find? fun kv => kv.2.file == file

/-- Rewrites the counter of the entry of key `ref` with `f`. -/
def update_ref (f : Nat → Nat) (ref : Nat) : images_t → images_t
  | [] => []
  | kv :: rest =>
    if kv.1 = ref then (kv.1, { kv.2 with refcount := f kv.2.refcount }) :: rest
    else kv :: update_ref f ref rest

/-- The call `journal.images.erase (it)` for the entry of key `ref`. -/
def erase_ref (ref : Nat) : images_t → images_t
  | [] => []
  | kv :: rest => if kv.1 = ref then rest else kv :: erase_ref ref rest

/-- The call `journal.images.emplace (ref, v)`: a new entry at its place in key
order, nothing when the key is there already. -/
def emplace (ref : Nat) (v : image_source_t) : images_t → images_t
  | [] => [(ref, v)]
  | kv :: rest =>
    if ref < kv.1 then (ref, v) :: kv :: rest
    else if ref = kv.1 then kv :: rest
    else kv :: emplace ref v rest

/-- The unsigned `--refcount`: below `0` it wraps. -/
def refcount_dec (rc : Nat) : Nat := if rc = 0 then UINT_MOD - 1 else rc - 1

/-- The function `release_image` (render.cpp:660): nothing when the handle of the
binding is not a key of the cache (so for `nullptr`); else the counter goes down,
the entry is erased at `0`, and the handle of the binding is cleared. -/
def release_image (images : images_t) (img : image_t) : images_t × image_t :=
  match find_ref images img.ref with
  | none => (images, img)
  | some kv =>
    if refcount_dec kv.2.refcount = 0 then (erase_ref img.ref images, { img with ref := 0 })
    else (update_ref refcount_dec img.ref images, { img with ref := 0 })

/-- What a call of `obtain_image` leaves: its return value, the number of calls
of the texture loader it made, the cache and the binding. -/
structure obtained where
  ok : Bool
  loads : Nat
  images : images_t
  img : image_t
deriving DecidableEq, Repr

/-- The function `obtain_image` (render.cpp:676).  The argument `tex` is the
answer of the loader `sseimgui.ddsfile_texture` for `file` at this moment, asked
only when no entry of the cache was read from `file`: `none` for a failure, else
the new texture. -/
def obtain_image (tex : Option Nat) (file : String) (images : images_t) (img : image_t) :
    obtained :=
  match find_file images file with
  | none =>
    match tex with
    | none => { ok := false, loads := 1, images := images, img := img }
    | some ref =>
      let images1 := emplace ref { refcount := 1, file := file } images
      { ok := true, loads := 1, images := update_ref (· + 1) ref images1,
        img := { img with ref := ref } }
  | some kv =>
    if img.ref = kv.1 then { ok := true, loads := 0, images := images, img := img }
    else
      let released := release_image images img
      { ok := true, loads := 0, images := update_ref (· + 1) kv.1 released.1,
        img := { released.2 with ref := kv.1 } }

/-- The cache together with the image bindings of the pages. -/
structure gallery where
  images : images_t
  imgs : List image_t
deriving DecidableEq, Repr

/-- The button "Show" on binding `i` (`draw_images`, render.cpp:753). -/
def show_image (tex : Option Nat) (file : String) (i : Nat) (g : gallery) : gallery :=
  let r := obtain_image tex file g.images (g.imgs.getD i image_t.blank)
  { images := r.images, imgs := g.imgs.set i r.img }

/-- The button "Hide" on binding `i` (`draw_images`, render.cpp:756). -/
def hide_image (i : Nat) (g : gallery) : gallery :=
  let r := release_image g.images (g.imgs.getD i image_t.blank)
  { images := r.1, imgs := g.imgs.set i r.2 }

/-- The loader answers, for a file not in the cache, with a texture that is not
a key of the cache (a new object differs from every live one). -/
def fresh (tex : Option Nat) (file : String) (images : images_t) : Prop :=
  find_file images file = none → ∀ ref, tex = some ref → find_ref images ref = none

/-- The states of cache and bindings that "Show" and "Hide" reach from an empty
cache and bindings without image. -/
inductive gallery_reachable : gallery → Prop
  | start (imgs : List image_t) (h : ∀ img ∈ imgs, img.ref = 0) :
      gallery_reachable { images := [], imgs := imgs }
  | shown (g : gallery) (tex : Option Nat) (file : String) (i : Nat) (hi : i < g.imgs.length)
      (hfresh : fresh tex file g.images) (hg : gallery_reachable g) :
      gallery_reachable (show_image tex file i g)
  | hidden (g : gallery) (i : Nat) (hi : i < g.imgs.length) (hg : gallery_reachable g) :
      gallery_reachable (hide_image i g)

/-- The number of bindings that hold the texture `ref`. -/
def holders (ref : Nat) : List image_t → Nat
  | [] => 0
  | img :: rest => holders ref rest + if img.ref = ref then 1 else 0

/-- What the reachable states of cache and bindings keep: no count is `0`; the
count of an entry is above the number of bindings that hold it; a binding with
an image holds a key of the cache. -/
def gallery_inv (g : gallery) : Prop :=
  (∀ kv ∈ g.images, kv.2.refcount ≠ 0)
    ∧ (∀ ref kv, ref ≠ 0 → find_ref g.images ref = some kv →
        holders ref g.imgs + 1 ≤ kv.2.refcount)
    ∧ (∀ img ∈ g.imgs, img.ref ≠ 0 → (find_ref g.images img.ref).isSome = true)

/-! ## The word wrap -/

/-- How the inner `for` of `greedy_word_wrap` ends: by `return out` at the end of
the text, or with `width` columns consumed at position `i`. -/
inductive line_end where
  | returned (out : Text)
  | full (i : Nat) (out : Text)
deriving DecidableEq, Repr

/-- The inner loop `for (unsigned c = 1; c <= width; ++c, ++i)` of
`greedy_word_wrap` (render.cpp:1031).  The first argument is `n - i`, the number
of bytes left, so that `i == n` reads as `0`; `source[i]` at `i = size ()` is the
NUL of `std::string`. -/
def copy_line (source : Text) (width : Nat) : Nat → Nat → Nat → Text → line_end
  | 0, c, i, out => if c ≤ width then .returned out else .full i out
  | left + 1, c, i, out =>
    if c ≤ width then
      let out1 := out.set i (source.getD i 0)
      let c1 := if source.getD i 0 = 10 then 1 else c
      copy_line source width left (c1 + 1) (i + 1) out1
    else .full i out

/-- The loop `for (unsigned k = i; k > 0; --k)` of `greedy_word_wrap`
(render.cpp:1043): the nearest `k` in `1 .. i` with a whitespace byte. -/
def scan_back (source : Text) : Nat → Option Nat
  | 0 => none
  | k + 1 => if isspace (source.getD (k + 1) 0) then some (k + 1) else scan_back source k

/-- The outer loop `for (unsigned i = 0; i < n; )` of `greedy_word_wrap`
(render.cpp:1028), `fuel` bounding the number of its rounds: `none` when the
rounds are used up before the function returns. -/
def wrap_loop (source : Text) (n width : Nat) : Nat → Nat → Text → Option Text
  | 0, _, _ => none
  | fuel + 1, i, out =>
    if i < n then
      match copy_line source width (n - i) 1 i out with
      | .returned out1 => some out1
      | .full i1 out1 =>
        if isspace (source.getD i1 0) then
          wrap_loop source n width fuel (i1 + 1) (out1.set i1 10)
        else
          match scan_back source i1 with
          | some k => wrap_loop source n width fuel (k + 1) (out1.set k 10)
          | none => wrap_loop source n width fuel i1 out1
    else some out

/-- The function `greedy_word_wrap` (render.cpp:1022) run for `fuel` rounds of
its outer loop.  The counters `i`, `c`, `k` are natural numbers: exact for texts
shorter than `2 ^ 32 - 1` bytes, where none of them wraps. -/
def greedy_word_wrap (fuel : Nat) (source : Text) (width : Nat) : Option Text :=
  wrap_loop source (strlen source) width fuel 0 (List.replicate (strlen source) 0)

/-- A byte of the result is right: it is the byte of the source, or a newline
over a whitespace byte of the source. -/
def wrapped_byte (source out : Text) (j : Nat) : Prop :=
  out.getD j 0 = source.getD j 0 ∨ (out.getD j 0 = 10 ∧ isspace (source.getD j 0) = true)

/-- The text of a string literal as bytes. -/
def bytes (s : String) : Text := s.toList.map Char.toNat

/-- No line of the first `i` bytes of `out` is longer than `w`: among any `w + 1`
bytes in a row below `i` there is a newline. -/
def lines_within (w : Nat) (out : Text) (i : Nat) : Prop :=
  ∀ a, a + w < i → ∃ j, a ≤ j ∧ j ≤ a + w ∧ out.getD j 0 = 10

/-- A stretch `a .. b` of `out` without newline that is longer than `w` (so part
of a line longer than `w`) holds no whitespace byte. -/
def long_lines_unbroken (w : Nat) (out : Text) : Prop :=
  ∀ a b, a ≤ b → b < out.length → w < b + 1 - a →
    (∀ j, a ≤ j → j ≤ b → out.getD j 0 ≠ 10) →
    ∀ j, a ≤ j → j ≤ b → isspace (out.getD j 0) = false

/-- The bytes `i .. i + m - 1` of the source copied into `out`, as the inner loop
of `greedy_word_wrap` does one by one. -/
def copy_bytes (source : Text) : Nat → Nat → Text → Text
  | 0, _, out => out
  | m + 1, i, out => copy_bytes source m (i + 1) (out.set i (source.getD i 0))

/-! ## The variables panel -/

/-- An entry of `journal.variables`, `variable_t` (declared in the absent header):
the members that `draw_variables` reads and writes, and `producer` for the
callable behind `v ()`, which a copy keeps. -/
structure variable_t where
  name : String
  params : String
  info : String
  deletable : Bool
  producer : Nat
deriving DecidableEq, Repr

/-- The list `journal.variables` (the member `vars`) with the statics of `draw_variables`
(render.cpp:490) that steer it: the selection `varsel` (`-1` for none), the bit
`ImGuiInputTextFlags_ReadOnly` of `params_flags`, and the text of the parameter
field.  The static `output`, the text that `v ()` produced, feeds nothing back
and is left out. -/
structure variables_panel where
  vars : List variable_t
  varsel : Int
  read_only : Bool
  params : String
deriving DecidableEq, Repr

/-- The panel when `draw_variables` runs first: nothing selected, the parameter
field read only. -/
def variables_panel.start (vars : List variable_t) : variables_panel :=
  { vars := vars, varsel := -1, read_only := true,
    params := "(Parameters of variables go here)" }

/-- The access `journal.variables[varsel]`; `none` when the index is outside the
vector, where the access is undefined. -/
def selected (p : variables_panel) : Option variable_t :=
  if 0 ≤ p.varsel then p.vars[p.varsel.toNat]? else none

/-- A click on item `i` of the list box (render.cpp:522): the selection moves
there, the parameter field is writable exactly for a deletable entry and shows
its parameters.  The list box has the items `0 .. size - 1` only. -/
def select_variable (i : Nat) (p : variables_panel) : variables_panel :=
  match p.vars[i]? with
  | none => p
  | some v => { p with varsel := i, read_only := !v.deletable, params := v.params }

/-- The call `std::swap (l[i], l[j])`; `none` when an index is outside. -/
def swap_at (l : List variable_t) (i j : Nat) : Option (List variable_t) :=
  match l[i]?, l[j]? with
  | some a, some b => some ((l.set i b).set j a)
  | _, _ => none

/-- The button "Move up" (render.cpp:538). -/
def move_up (p : variables_panel) : Option variables_panel :=
  if p.varsel > 0 then
    (swap_at p.vars p.varsel.toNat (p.varsel - 1).toNat).map fun vs =>
      { p with vars := vs, varsel := p.varsel - 1 }
  else some p

/-- The button "Move down" (render.cpp:544). -/
def move_down (p : variables_panel) : Option variables_panel :=
  if p.varsel ≥ 0 ∧ p.varsel + 1 < (p.vars.length : Int) then
    (swap_at p.vars p.varsel.toNat (p.varsel + 1).toNat).map fun vs =>
      { p with vars := vs, varsel := p.varsel + 1 }
  else some p

/-- The button "Copy as new" followed by "Create" with the name typed into the
popup (render.cpp:550, 590): the popup opens only with a selection; the copy of
the selected entry, made deletable and renamed, goes to the front and is
selected, and the parameter field becomes writable. -/
def copy_as_new (name : String) (p : variables_panel) : Option variables_panel :=
  if 0 ≤ p.varsel then
    (selected p).map fun v =>
      { vars := { v with deletable := true, name := name } :: p.vars,
        varsel := 0, read_only := false, params := p.params }
  else some p

/-- Whether the button "Delete" opens the popup "Delete variable?"
(render.cpp:556): only with a selection whose entry is deletable. -/
def delete_opens (p : variables_panel) : Option Bool :=
  if 0 ≤ p.varsel then (selected p).map fun v => v.deletable else some false

/-- The button "Delete" followed by "Are you sure?" (render.cpp:556): when the
popup opens, the selected entry is erased, the parameter field becomes read only
and nothing is selected. -/
def delete_variable (p : variables_panel) : Option variables_panel :=
  if 0 ≤ p.varsel then
    (selected p).map fun v =>
      if v.deletable then
        { vars := p.vars.eraseIdx p.varsel.toNat, varsel := -1, read_only := true,
          params := p.params }
      else p
  else some p

/-- The button "Load" (render.cpp:580): `loaded` is the list that
`load_variables ()` leaves in `journal.variables`. -/
def load_button (loaded : List variable_t) (p : variables_panel) : variables_panel :=
  { vars := loaded, varsel := -1, read_only := false, params := p.params }

/-- An edit of the parameter field to `text` (render.cpp:515).  A read only field
takes no edit and `imgui_input_text` returns false; else the text is stored into
`journal.variables[varsel]`, `none` when that access is outside the vector. -/
def edit_params (text : String) (p : variables_panel) : Option variables_panel :=
  if p.read_only then some p
  else
    (selected p).map fun v =>
      { p with params := text,
               vars := p.vars.set p.varsel.toNat { v with params := text } }

/-- The parameter field is writable only with a deletable entry selected. -/
def panel_ok (p : variables_panel) : Prop :=
  p.read_only = false → ∃ v, selected p = some v ∧ v.deletable = true

/-! ## The spread of the book -/

theorem uadd_of_lt {m a b : Nat} (h : a + b < m) : uadd m a b = a + b := by
  unfold uadd; exact Nat.mod_eq_of_lt h

theorem udec_of_pos {m a : Nat} (h0 : 0 < a) (h : a < m) : udec m a = a - 1 := by
  unfold udec
  have e : a + (m - 1) = (a - 1) + m := by omega
  rw [e, Nat.add_mod_right]
  exact Nat.mod_eq_of_lt (by omega)

theorem length_resize (pages : List page_t) (n : Nat) : (resize pages n).length = n := by
  simp only [resize, List.length_append, List.length_take, List.length_replicate]
  omega

/-- A cursor that is at least two below the top of its type is put right by
`setup`: the journal it hands over satisfies the spread invariant. -/
theorem setup_spread_inv (m : Nat) (loaded j : journal_t) (h : loaded.current_page + 2 < m)
    (hs : setup m true loaded = some j) : spread_inv j := by
  simp only [setup, Bool.not_true, Bool.false_eq_true, if_false, uadd_of_lt h,
    Option.some.injEq] at hs
  subst hs
  unfold spread_inv
  dsimp only
  by_cases h3 : loaded.pages.length < 3
  · simp only [h3, if_true, length_resize]
    by_cases hc : loaded.current_page + 2 ≥ 2
    · simp only [hc, if_true]; omega
    · omega
  · simp only [h3, if_false]
    by_cases hc : loaded.current_page + 2 ≥ loaded.pages.length
    · simp only [hc, if_true]; omega
    · simp only [hc, if_false]; omega

/-- With fewer pages than the modulus of the cursor, `next_page` keeps the spread
invariant. -/
theorem next_page_spread_inv (m : Nat) (j : journal_t) (hinv : spread_inv j)
    (hlen : j.pages.length < m) : spread_inv (next_page m j) := by
  obtain ⟨h2, h0, hc⟩ := hinv
  have e2 : uadd m j.current_page 2 = j.current_page + 2 := uadd_of_lt (by omega)
  have e1 : uadd m j.current_page 1 = j.current_page + 1 := uadd_of_lt (by omega)
  unfold next_page spread_inv
  rw [e2, e1]
  by_cases ha : j.current_page + 2 < j.pages.length
  · simp only [ha, if_true]; omega
  · simp only [ha, if_false]
    by_cases hb : j.current_page + 2 = j.pages.length
    · simp only [hb, if_true]
      by_cases hv : back_visible j.pages = true
      · simp only [hv, if_true, List.length_append, List.length_singleton]; omega
      · simp only [hv]; exact ⟨h2, h0, hc⟩
    · simp only [hb, if_false]; exact ⟨h2, h0, hc⟩

/-- With fewer pages than the modulus of the cursor, `previous_page` keeps the
spread invariant. -/
theorem previous_page_spread_inv (m : Nat) (j : journal_t) (hinv : spread_inv j)
    (hlen : j.pages.length < m) : spread_inv (previous_page m j) := by
  obtain ⟨h2, h0, hc⟩ := hinv
  unfold previous_page spread_inv
  by_cases hp : j.current_page > 0
  · have e : udec m j.current_page = j.current_page - 1 :=
      udec_of_pos hp (Nat.lt_of_le_of_lt (by omega) hlen)
    simp only [hp, if_true, e]; omega
  · simp only [hp, if_false]; exact ⟨h2, h0, hc⟩

/-- With fewer pages than the modulus of the cursor, the click on a chapter keeps
the spread invariant. -/
theorem select_chapter_spread_inv (m sel : Nat) (j : journal_t) (hinv : spread_inv j)
    (hsel : sel < j.pages.length) (hlen : j.pages.length < m) :
    spread_inv (select_chapter m sel j) := by
  obtain ⟨h2, h0, hc⟩ := hinv
  unfold select_chapter spread_inv
  dsimp only
  by_cases hl : (sel : Int) + 1 = j.pages.length
  · rw [if_pos hl, Int.emod_eq_of_lt (by omega) (by omega)]
    omega
  · rw [if_neg hl, Int.emod_eq_of_lt (by omega) (by omega)]
    omega

/-- The loop of `draw_chapters` on a cursor that does not wrap and a book of two
pages or more: the cursor comes down to `size - 2` when it is above. -/
theorem adjust_cursor_eq (m size : Nat) (h2 : 2 ≤ size) :
    ∀ c, c + 2 < m → adjust_cursor m size c = some (min c (size - 2)) := by
  intro c
  induction c with
  | zero =>
    intro h
    simp only [adjust_cursor, uadd_of_lt h]
    rw [if_neg (by omega)]
    simp
  | succ c ih =>
    intro h
    simp only [adjust_cursor, uadd_of_lt h]
    by_cases hc : c + 1 + 2 > size
    · rw [if_pos hc, ih (by omega)]
      congr 1
      omega
    · rw [if_neg hc]
      congr 1
      omega

/-- The block `if (adjust)` restores the spread invariant after an insertion or
a deletion, for a cursor that does not wrap. -/
theorem adjust_spread_inv (m : Nat) (j : journal_t) (h : j.current_page + 2 < m) :
    ∃ j2, adjust m j = some j2 ∧ spread_inv j2 := by
  unfold adjust
  by_cases hl : j.pages.length < 2
  · simp only [hl, if_true, length_resize, adjust_cursor_eq m 2 (Nat.le_refl 2) _ h,
      Option.map_some']
    refine ⟨_, rfl, ?_⟩
    unfold spread_inv
    simp only [length_resize]
    omega
  · simp only [hl, if_false, adjust_cursor_eq m _ (Nat.le_of_not_lt hl) _ h, Option.map_some']
    refine ⟨_, rfl, ?_⟩
    unfold spread_inv
    dsimp only
    omega

/-- C1, at the failing input: `load_book` has left three pages and the cursor at
the largest value of its type.  The sum `current_page + 2` of the guard of
`setup` wraps to `1`, the cursor is not reset, and the journal that `setup` hands
to the renderer breaks the spread invariant (here for a 32 bit and for a 64 bit
cursor). -/
theorem setup_keeps_wrapped_cursor :
    setup UINT_MOD true ⟨[page_t.blank, page_t.blank, page_t.blank], UINT_MOD - 1⟩
        = some ⟨[page_t.blank, page_t.blank, page_t.blank], UINT_MOD - 1⟩
      ∧ ¬ spread_inv ⟨[page_t.blank, page_t.blank, page_t.blank], UINT_MOD - 1⟩
      ∧ setup (2 ^ 64) true ⟨[page_t.blank, page_t.blank, page_t.blank], 2 ^ 64 - 1⟩
        = some ⟨[page_t.blank, page_t.blank, page_t.blank], 2 ^ 64 - 1⟩
      ∧ ¬ spread_inv ⟨[page_t.blank, page_t.blank, page_t.blank], 2 ^ 64 - 1⟩ := by
  refine ⟨?_, ?_, ?_, ?_⟩
  · simp [setup, uadd, UINT_MOD]
  · simp [spread_inv, UINT_MOD]
  · simp [setup, uadd]
  · simp [spread_inv]

/-- C2: on a document that satisfies the spread invariant (the sum
`current_page + 2` staying below the modulus of the cursor), `next_page` (a)
moves the cursor by one and keeps the pages when `current_page + 2 < length`;
(b) at the last spread, when the title or the content of the last page has a
visible symbol, appends one blank page and moves the cursor by one; (c) at the
last spread with nothing visible on the last page, changes nothing. -/
theorem next_page_cases (m : Nat) (j : journal_t) (hinv : spread_inv j)
    (hcur : j.current_page + 2 < m) :
    (j.current_page + 2 < j.pages.length →
        next_page m j = { pages := j.pages, current_page := j.current_page + 1 })
      ∧ (j.current_page + 2 = j.pages.length → back_visible j.pages = true →
        next_page m j =
          { pages := j.pages ++ [page_t.blank], current_page := j.current_page + 1 })
      ∧ (j.current_page + 2 = j.pages.length → back_visible j.pages = false →
        next_page m j = j) := by
  obtain ⟨h2, -, hc⟩ := hinv
  have e2 : uadd m j.current_page 2 = j.current_page + 2 := uadd_of_lt (by omega)
  have e1 : uadd m j.current_page 1 = j.current_page + 1 := uadd_of_lt (by omega)
  refine ⟨fun h => ?_, fun h hv => ?_, fun h hv => ?_⟩
  · simp [next_page, e2, e1, h]
  · simp [next_page, e2, e1, h, hv]
  · simp [next_page, e2, h, hv]

/-- C2, the example of the specification: two pages, cursor `0`.  With "hello" on
the last page `next_page` gives three pages and cursor `1`; with a blank last
page it changes nothing. -/
theorem next_page_cases_witness :
    next_page UINT_MOD ⟨[page_t.blank, { page_t.blank with content := bytes "hello" }], 0⟩
        = ⟨[page_t.blank, { page_t.blank with content := bytes "hello" }, page_t.blank], 1⟩
      ∧ next_page UINT_MOD ⟨[page_t.blank, page_t.blank], 0⟩ = ⟨[page_t.blank, page_t.blank], 0⟩ :=
  ⟨((next_page_cases UINT_MOD
      ⟨[page_t.blank, { page_t.blank with content := bytes "hello" }], 0⟩
      (by decide) (by decide)).2.1 (by decide) (by decide)),
   ((next_page_cases UINT_MOD ⟨[page_t.blank, page_t.blank], 0⟩
      (by decide) (by decide)).2.2 (by decide) (by decide))⟩

/-! ## The word wrap: what a returned text looks like -/

theorem getD_set (l : Text) (i j v : Nat) :
    (l.set i v).getD j 0 = if i = j ∧ i < l.length then v else l.getD j 0 := by
  simp only [List.getD_eq_getElem?_getD, List.getElem?_set]
  by_cases h : i = j
  · subst h
    by_cases h2 : i < l.length
    · simp [h2]
    · simp [h2, List.getElem?_eq_none (Nat.le_of_not_lt h2)]
  · simp [h]

theorem wrapped_byte_set_other (s out : Text) (i j v : Nat) (h : i ≠ j)
    (hw : wrapped_byte s out j) : wrapped_byte s (out.set i v) j := by
  unfold wrapped_byte at *
  rw [getD_set, if_neg (fun hh => h hh.1)]
  exact hw

theorem wrapped_byte_copy (s out : Text) (i : Nat) (h : i < out.length) :
    wrapped_byte s (out.set i (s.getD i 0)) i := by
  unfold wrapped_byte
  rw [getD_set, if_pos ⟨rfl, h⟩]
  exact Or.inl rfl

theorem wrapped_byte_newline (s out : Text) (i : Nat) (h : i < out.length)
    (hs : isspace (s.getD i 0) = true) : wrapped_byte s (out.set i 10) i := by
  unfold wrapped_byte
  rw [getD_set, if_pos ⟨rfl, h⟩]
  exact Or.inr ⟨rfl, hs⟩

theorem scan_back_some (s : Text) (i k : Nat) (h : scan_back s i = some k) :
    k ≤ i ∧ isspace (s.getD k 0) = true := by
  induction i with
  | zero => simp [scan_back] at h
  | succ i ih =>
    unfold scan_back at h
    split at h
    · injection h with h
      subst h
      exact ⟨Nat.le_refl _, by assumption⟩
    · exact ⟨Nat.le_succ_of_le (ih h).1, (ih h).2⟩

/-- What the inner loop keeps: the length of `out`, and the bytes below the
position being right. -/
theorem copy_line_keeps (s : Text) (w n : Nat) (left : Nat) :
    ∀ (c i : Nat) (out : Text), i + left = n → out.length = n →
      (∀ j, j < i → wrapped_byte s out j) →
      (∀ o, copy_line s w left c i out = .returned o →
        o.length = n ∧ ∀ j, j < n → wrapped_byte s o j)
      ∧ (∀ i1 o, copy_line s w left c i out = .full i1 o →
        o.length = n ∧ i1 ≤ n ∧ ∀ j, j < i1 → wrapped_byte s o j) := by
  induction left with
  | zero =>
    intro c i out hi hl hw
    by_cases hc : c ≤ w
    · have e : copy_line s w 0 c i out = .returned out := by simp [copy_line, hc]
      rw [e]
      refine ⟨fun o h => ?_, fun i1 o h => by cases h⟩
      injection h with h
      subst h
      exact ⟨hl, fun j hj => hw j (by omega)⟩
    · have e : copy_line s w 0 c i out = .full i out := by simp [copy_line, hc]
      rw [e]
      refine ⟨fun o h => (by cases h), fun i1 o h => ?_⟩
      injection h with h1 h2
      subst h1 h2
      exact ⟨hl, by omega, hw⟩
  | succ left ih =>
    intro c i out hi hl hw
    by_cases hc : c ≤ w
    · have e : copy_line s w (left + 1) c i out
          = copy_line s w left ((if s.getD i 0 = 10 then 1 else c) + 1) (i + 1)
              (out.set i (s.getD i 0)) := by
        simp [copy_line, hc]
      rw [e]
      refine ih _ (i + 1) _ (by omega) (by simp [hl]) ?_
      intro j hj
      by_cases e : i = j
      · subst e
        exact wrapped_byte_copy s out i (by omega)
      · exact wrapped_byte_set_other s out i j _ e (hw j (by omega))
    · have e : copy_line s w (left + 1) c i out = .full i out := by simp [copy_line, hc]
      rw [e]
      refine ⟨fun o h => (by cases h), fun i1 o h => ?_⟩
      injection h with h1 h2
      subst h1 h2
      exact ⟨hl, by omega, hw⟩

/-- What the outer loop keeps, round after round. -/
theorem wrap_loop_keeps (s : Text) (w n : Nat) (fuel : Nat) :
    ∀ (i : Nat) (out res : Text), out.length = n →
      (∀ j, j < i → j < n → wrapped_byte s out j) →
      wrap_loop s n w fuel i out = some res →
      res.length = n ∧ ∀ j, j < n → wrapped_byte s res j := by
  induction fuel with
  | zero => intro i out res _ _ h; simp [wrap_loop] at h
  | succ fuel ih =>
    intro i out res hl hw h
    unfold wrap_loop at h
    split at h
    · rename_i hin
      have hc := copy_line_keeps s w n (n - i) 1 i out (by omega) hl
        (fun j hj => hw j hj (by omega))
      split at h
      · rename_i o heq
        injection h with h
        subst h
        exact hc.1 _ heq
      · rename_i i1 o heq
        obtain ⟨hol, hi1, how⟩ := hc.2 _ _ heq
        split at h
        · rename_i hsp
          refine ih (i1 + 1) _ res (by simp [hol]) ?_ h
          intro j hj hjn
          by_cases e : i1 = j
          · subst e
            exact wrapped_byte_newline s o i1 (by omega) hsp
          · exact wrapped_byte_set_other s o i1 j _ e (how j (by omega))
        · split at h
          · rename_i k hk
            obtain ⟨hki, hks⟩ := scan_back_some s i1 k hk
            refine ih (k + 1) _ res (by simp [hol]) ?_ h
            intro j hj hjn
            by_cases e : k = j
            · subst e
              exact wrapped_byte_newline s o k (by omega) hks
            · exact wrapped_byte_set_other s o k j _ e (how j (by omega))
          · exact ih i1 o res hol (fun j hj _ => how j hj) h
    · injection h with h
      subst h
      exact ⟨hl, fun j hj => hw j (by omega) hj⟩

/-- C3, as the code has it: a text returned by `greedy_word_wrap` has the length
of the C string of the source (its bytes before the first NUL); each of its bytes
is the byte of the source at that index or a newline over a whitespace byte of
the source; so a byte of the source that is no whitespace, and any byte of `0x80`
or more, is kept. -/
theorem greedy_word_wrap_bytes (fuel : Nat) (s : Text) (w : Nat) (out : Text)
    (h : greedy_word_wrap fuel s w = some out) :
    out.length = strlen s
      ∧ (∀ j, j < strlen s → wrapped_byte s out j)
      ∧ (∀ j, j < strlen s → isspace (s.getD j 0) = false → out.getD j 0 = s.getD j 0)
      ∧ (∀ j, j < strlen s → 128 ≤ s.getD j 0 → out.getD j 0 = s.getD j 0) := by
  have key := wrap_loop_keeps s w (strlen s) fuel 0 (List.replicate (strlen s) 0) out
    (by simp) (fun j hj => absurd hj (Nat.not_lt_zero j)) h
  refine ⟨key.1, key.2, ?_, ?_⟩
  · intro j hj hs
    rcases key.2 j hj with e | ⟨_, e⟩
    · exact e
    · rw [hs] at e; exact absurd e (by decide)
  · intro j hj hs
    rcases key.2 j hj with e | ⟨_, e⟩
    · exact e
    · simp only [isspace, Bool.or_eq_true, Bool.and_eq_true, beq_iff_eq,
        decide_eq_true_eq] at e
      omega

/-- C3, an instance: the example of the specification, `"aaaaaaaaaa bbb"` at
width 10, returns with the space turned into a newline. -/
theorem greedy_word_wrap_bytes_witness :
    greedy_word_wrap 2 (bytes "aaaaaaaaaa bbb") 10 = some (bytes "aaaaaaaaaa\nbbb")
      ∧ (bytes "aaaaaaaaaa\nbbb").length = strlen (bytes "aaaaaaaaaa bbb")
      ∧ (bytes "aaaaaaaaaa\nbbb").getD 10 0 = 10 :=
  ⟨by decide,
   (greedy_word_wrap_bytes 2 (bytes "aaaaaaaaaa bbb") 10 (bytes "aaaaaaaaaa\nbbb") (by decide)).1,
   by decide⟩

/-- C3 as stated fails: the source `"a\0"` has two bytes, the text returned for
it has one, the C string `"a"`. -/
theorem greedy_word_wrap_drops_after_nul :
    ∃ out, greedy_word_wrap 2 [97, 0] 1 = some out ∧ out.length ≠ ([97, 0] : Text).length :=
  ⟨[97], by decide, by decide⟩

/-! ## The word wrap: a text it never returns for -/

theorem wrap_loop_hello_world (fuel : Nat) :
    wrap_loop (bytes "hello world") 11 5 fuel 6 (bytes "hello\nworld") = none := by
  induction fuel with
  | zero => rfl
  | succ fuel ih =>
    have step : wrap_loop (bytes "hello world") 11 5 (fuel + 1) 6 (bytes "hello\nworld")
        = wrap_loop (bytes "hello world") 11 5 fuel 6 (bytes "hello\nworld") := by
      simp [wrap_loop, copy_line, scan_back, isspace, bytes]
    rw [step, ih]

/-- C4, at the failing input: for `"hello world"` at width 5 no number of rounds
of the outer loop reaches a `return`.  The second line, `world`, fills the width
exactly at the end of the text; the backward scan then finds the space at index
5 again and the forward scan restarts at index 6, for ever. -/
theorem greedy_word_wrap_hello_world_loops (fuel : Nat) :
    greedy_word_wrap fuel (bytes "hello world") 5 = none := by
  match fuel with
  | 0 => rfl
  | 1 => decide
  | fuel + 2 =>
    have h := wrap_loop_hello_world fuel
    have step : greedy_word_wrap (fuel + 2) (bytes "hello world") 5
        = wrap_loop (bytes "hello world") 11 5 fuel 6 (bytes "hello\nworld") := by
      simp [greedy_word_wrap, strlen, c_str, wrap_loop, copy_line, scan_back, isspace, bytes]
    rw [step, h]

/-! ## The image cache: single calls -/

/-- C5, at the failing input: the cache is empty, the binding has no image, the
loader answers with texture `7`.  `obtain_image` succeeds and leaves the new
entry at count `2` (created at `1`, then counted once more for the binding);
`release_image` then clears the binding but leaves the entry in the cache at
count `1`, where the claim has count `0` and the entry removed. -/
theorem obtain_then_release_keeps_entry :
    obtain_image (some 7) "a.dds" [] image_t.blank
        = { ok := true, loads := 1, images := [(7, { refcount := 2, file := "a.dds" })],
            img := { image_t.blank with ref := 7 } }
      ∧ release_image [(7, { refcount := 2, file := "a.dds" })] { image_t.blank with ref := 7 }
        = ([(7, { refcount := 1, file := "a.dds" })], image_t.blank) := by
  decide

/-- C6, at the failing input: from the empty cache two bindings without image
are bound to `a.dds`.  The file is loaded once and there is one entry, held by
both bindings, but its count is `3`, not `2`; after the release of the first
binding the count is `2`, not `1`. -/
theorem two_bindings_count_three :
    obtain_image (some 8) "a.dds"
        (obtain_image (some 7) "a.dds" [] image_t.blank).images image_t.blank
        = { ok := true, loads := 0, images := [(7, { refcount := 3, file := "a.dds" })],
            img := { image_t.blank with ref := 7 } }
      ∧ (obtain_image (some 7) "a.dds" [] image_t.blank).img.ref = 7
      ∧ release_image [(7, { refcount := 3, file := "a.dds" })] { image_t.blank with ref := 7 }
        = ([(7, { refcount := 2, file := "a.dds" })], image_t.blank) := by
  decide

/-- C7, at the failing input: a binding holds `a.dds` (texture `7`, the state
after its first bind) and is bound to `b.dds`, which has to be loaded (texture
`9`).  The binding ends on texture `9`, but the entry of `a.dds` keeps its count
of `2`: the branch that loads does not release the old image.  When `b.dds` is
in the cache already, the old entry does go down by one. -/
theorem switch_to_loaded_image_keeps_old_count :
    obtain_image (some 9) "b.dds" [(7, { refcount := 2, file := "a.dds" })]
        { image_t.blank with ref := 7 }
        = { ok := true, loads := 1,
            images := [(7, { refcount := 2, file := "a.dds" }),
                       (9, { refcount := 2, file := "b.dds" })],
            img := { image_t.blank with ref := 9 } }
      ∧ obtain_image none "b.dds"
          [(7, { refcount := 2, file := "a.dds" }), (9, { refcount := 1, file := "b.dds" })]
          { image_t.blank with ref := 7 }
        = { ok := true, loads := 0,
            images := [(7, { refcount := 1, file := "a.dds" }),
                       (9, { refcount := 2, file := "b.dds" })],
            img := { image_t.blank with ref := 9 } } := by
  decide

/-- C8: when no entry of the cache was read from `file` and the loader fails,
`obtain_image` returns false after that one load, and the cache and the binding
(handle, rectangles, tint, background) are what they were. -/
theorem obtain_image_load_failure (file : String) (images : images_t) (img : image_t)
    (h : find_file images file = none) :
    obtain_image none file images img
      = { ok := false, loads := 1, images := images, img := img } := by
  simp [obtain_image, h]

/-- C8, an instance: the binding holds `a.dds`, the load of `b.dds` fails. -/
theorem obtain_image_load_failure_witness :
    obtain_image none "b.dds" [(7, { refcount := 2, file := "a.dds" })]
        { ref := 7, uv := ⟨0, 0, 1, 1⟩, xy := ⟨0, 0, 1, 1⟩, tint := 255, background := true }
      = { ok := false, loads := 1, images := [(7, { refcount := 2, file := "a.dds" })],
          img := { ref := 7, uv := ⟨0, 0, 1, 1⟩, xy := ⟨0, 0, 1, 1⟩, tint := 255,
                   background := true } } :=
  obtain_image_load_failure "b.dds" [(7, { refcount := 2, file := "a.dds" })] _ (by decide)

/-! ## The image cache: binding twice -/

theorem find_file_cons (kv : Nat × image_source_t) (rest : images_t) (file : String) :
    find_file (kv :: rest) file = if kv.2.file = file then some kv else find_file rest file := by
  unfold find_file
  by_cases h : kv.2.file = file <;> simp [List.find?_cons, h]

theorem find_ref_cons (kv : Nat × image_source_t) (rest : images_t) (ref : Nat) :
    find_ref (kv :: rest) ref = if kv.1 = ref then some kv else find_ref rest ref := by
  unfold find_ref
  by_cases h : kv.1 = ref <;> simp [List.find?_cons, h]

/-- Rewriting a counter does not change which key `find_if` meets first. -/
theorem find_file_update_ref (f : Nat → Nat) (r : Nat) (file : String) (images : images_t) :
    (find_file (update_ref f r images) file).map Prod.fst
      = (find_file images file).map Prod.fst := by
  induction images with
  | nil => rfl
  | cons kv rest ih =>
    unfold update_ref
    by_cases hk : kv.1 = r
    · by_cases hf : kv.2.file = file <;> simp [hk, find_file_cons, hf]
    · by_cases hf : kv.2.file = file <;> simp [hk, find_file_cons, hf, ih]

/-- Erasing another entry does not change which key `find_if` meets first. -/
theorem find_file_erase_ref (r : Nat) (file : String) (kv : Nat × image_source_t)
    (images : images_t) (h : find_file images file = some kv) (hne : r ≠ kv.1) :
    (find_file (erase_ref r images) file).map Prod.fst = some kv.1 := by
  induction images with
  | nil => simp [find_file] at h
  | cons x rest ih =>
    rw [find_file_cons] at h
    unfold erase_ref
    by_cases hf : x.2.file = file
    · rw [if_pos hf] at h
      injection h with h
      subst h
      have hx : ¬ x.1 = r := fun e => hne e.symm
      simp [hx, find_file_cons, hf]
    · rw [if_neg hf] at h
      by_cases hx : x.1 = r
      · simp [hx, h]
      · simp [hx, find_file_cons, hf, ih h]

/-- After a load the new entry is the one `find_if` meets for its file. -/
theorem find_file_emplace (f : Nat → Nat) (ref c : Nat) (file : String) (images : images_t)
    (hfile : find_file images file = none) (href : find_ref images ref = none) :
    find_file (update_ref f ref (emplace ref { refcount := c, file := file } images)) file
      = some (ref, { refcount := f c, file := file }) := by
  induction images with
  | nil => simp [emplace, update_ref, find_file_cons]
  | cons x rest ih =>
    rw [find_file_cons] at hfile
    rw [find_ref_cons] at href
    by_cases hf : x.2.file = file
    · rw [if_pos hf] at hfile; cases hfile
    · by_cases hx : x.1 = ref
      · rw [if_pos hx] at href; cases href
      · rw [if_neg hf] at hfile
        rw [if_neg hx] at href
        have hx2 : ¬ ref = x.1 := fun e => hx e.symm
        unfold emplace
        by_cases hlt : ref < x.1
        · simp [hlt, update_ref, find_file_cons]
        · simp [hlt, hx2, update_ref, hx, find_file_cons, hf, ih hfile href]

/-- After a call of `obtain_image` that returned true, the entry that `find_if`
meets for the file is the one the binding holds. -/
theorem obtain_image_holds (tex : Option Nat) (file : String) (images : images_t)
    (img : image_t) (hfresh : fresh tex file images)
    (hok : (obtain_image tex file images img).ok = true) :
    (find_file (obtain_image tex file images img).images file).map Prod.fst
      = some (obtain_image tex file images img).img.ref := by
  unfold obtain_image at hok ⊢
  cases hfile : find_file images file with
  | none =>
    cases tex with
    | none => simp [hfile] at hok
    | some ref =>
      have href := hfresh hfile ref rfl
      simp [find_file_emplace _ ref 1 file images hfile href]
  | some kv =>
    by_cases hsame : img.ref = kv.1
    · simp [hsame, hfile]
    · simp only [hsame, if_false]
      rw [find_file_update_ref]
      unfold release_image
      cases hr : find_ref images img.ref with
      | none => simp [hfile]
      | some kv0 =>
        by_cases hz : refcount_dec kv0.2.refcount = 0
        · simp only [hz, if_true]
          exact find_file_erase_ref img.ref file kv images hfile hsame
        · simp only [hz, if_false]
          rw [find_file_update_ref, hfile]
          rfl

/-- C9: when `obtain_image` has returned true for a binding and a file (the
loader, if it was asked, having answered with a texture that is not in the
cache), the same call made again returns true, asks the loader nothing, and
leaves the cache, the count of the entry included, and the binding as they are. -/
theorem obtain_image_twice (tex tex2 : Option Nat) (file : String) (images : images_t)
    (img : image_t) (hfresh : fresh tex file images)
    (hok : (obtain_image tex file images img).ok = true) :
    obtain_image tex2 file (obtain_image tex file images img).images
        (obtain_image tex file images img).img
      = { ok := true, loads := 0, images := (obtain_image tex file images img).images,
          img := (obtain_image tex file images img).img } := by
  have h := obtain_image_holds tex file images img hfresh hok
  generalize obtain_image tex file images img = r at h
  cases hf : find_file r.images file with
  | none => simp [hf] at h
  | some kv =>
    simp only [hf, Option.map_some', Option.some.injEq] at h
    simp [obtain_image, hf, h]

/-- C9, two instances: a first bind that loads the file, and a switch to a file
that is in the cache; the second call changes nothing in either. -/
theorem obtain_image_twice_witness :
    obtain_image (some 8) "a.dds" [(7, { refcount := 2, file := "a.dds" })]
        { image_t.blank with ref := 7 }
        = { ok := true, loads := 0, images := [(7, { refcount := 2, file := "a.dds" })],
            img := { image_t.blank with ref := 7 } }
      ∧ obtain_image none "b.dds"
          [(7, { refcount := 1, file := "a.dds" }), (9, { refcount := 2, file := "b.dds" })]
          { image_t.blank with ref := 9 }
        = { ok := true, loads := 0,
            images := [(7, { refcount := 1, file := "a.dds" }),
                       (9, { refcount := 2, file := "b.dds" })],
            img := { image_t.blank with ref := 9 } } :=
  ⟨obtain_image_twice (some 7) (some 8) "a.dds" [] image_t.blank
      (fun _ ref h => by cases h; rfl) (by decide),
   obtain_image_twice none none "b.dds"
      [(7, { refcount := 2, file := "a.dds" }), (9, { refcount := 1, file := "b.dds" })]
      { image_t.blank with ref := 7 } (fun h => by revert h; decide) (by decide)⟩

/-! ## The image cache: the reachable states -/

theorem holders_set (ref : Nat) (new : image_t) (imgs : List image_t) :
    ∀ i, i < imgs.length →
      holders ref (imgs.set i new) + (if (imgs.getD i image_t.blank).ref = ref then 1 else 0)
        = holders ref imgs + (if new.ref = ref then 1 else 0) := by
  induction imgs with
  | nil => intro i hi; simp at hi
  | cons x rest ih =>
    intro i hi
    cases i with
    | zero => simp [holders]; omega
    | succ i =>
      have := ih i (by simpa using hi)
      simp only [List.set_cons_succ, holders, List.getD_cons_succ]
      omega

theorem set_getD_self (imgs : List image_t) :
    ∀ i, imgs.set i (imgs.getD i image_t.blank) = imgs := by
  induction imgs with
  | nil => intro i; rfl
  | cons x rest ih =>
    intro i
    cases i with
    | zero => rfl
    | succ i =>
      show x :: rest.set i (rest.getD i image_t.blank) = x :: rest
      rw [ih i]

theorem getD_mem (imgs : List image_t) :
    ∀ i, i < imgs.length → imgs.getD i image_t.blank ∈ imgs := by
  induction imgs with
  | nil => intro i hi; simp at hi
  | cons x rest ih =>
    intro i hi
    cases i with
    | zero => simp
    | succ i => simpa using Or.inr (ih i (by simpa using hi))

theorem getD_set_self (new : image_t) (imgs : List image_t) :
    ∀ i, i < imgs.length → (imgs.set i new).getD i image_t.blank = new := by
  induction imgs with
  | nil => intro i hi; simp at hi
  | cons x rest ih =>
    intro i hi
    cases i with
    | zero => rfl
    | succ i => simpa using ih i (by simpa using hi)

theorem mem_set (new x : image_t) (imgs : List image_t) :
    ∀ i, x ∈ imgs.set i new → x = new ∨ x ∈ imgs := by
  induction imgs with
  | nil => intro i h; simp at h
  | cons y rest ih =>
    intro i h
    cases i with
    | zero =>
      simp only [List.set_cons_zero, List.mem_cons] at h
      rcases h with h | h
      · exact Or.inl h
      · exact Or.inr (List.mem_cons_of_mem _ h)
    | succ i =>
      simp only [List.set_cons_succ, List.mem_cons] at h
      rcases h with h | h
      · exact Or.inr (by simp [h])
      · rcases ih i h with h | h
        · exact Or.inl h
        · exact Or.inr (List.mem_cons_of_mem _ h)

theorem holders_pos (ref : Nat) (imgs : List image_t) (img : image_t) (h : img ∈ imgs)
    (hr : img.ref = ref) : 1 ≤ holders ref imgs := by
  induction imgs with
  | nil => simp at h
  | cons x rest ih =>
    simp only [List.mem_cons] at h
    unfold holders
    rcases h with h | h
    · subst h; simp [hr]
    · have := ih h; omega

theorem holders_zero (ref : Nat) (imgs : List image_t) (h : ∀ img ∈ imgs, img.ref ≠ ref) :
    holders ref imgs = 0 := by
  induction imgs with
  | nil => rfl
  | cons x rest ih =>
    unfold holders
    have hx : x.ref ≠ ref := h x (by simp)
    simp [hx, ih (fun img hm => h img (List.mem_cons_of_mem _ hm))]

theorem find_ref_key (images : images_t) (ref : Nat) (kv : Nat × image_source_t)
    (h : find_ref images ref = some kv) : kv.1 = ref := by
  unfold find_ref at h
  simpa using List.find?_some h

theorem find_ref_mem (images : images_t) (ref : Nat) (kv : Nat × image_source_t)
    (h : find_ref images ref = some kv) : kv ∈ images := by
  unfold find_ref at h
  exact List.mem_of_find?_eq_some h

theorem find_file_mem (images : images_t) (file : String) (kv : Nat × image_source_t)
    (h : find_file images file = some kv) : kv ∈ images := by
  unfold find_file at h
  exact List.mem_of_find?_eq_some h

theorem find_ref_of_mem (images : images_t) (kv : Nat × image_source_t) (h : kv ∈ images) :
    (find_ref images kv.1).isSome = true := by
  induction images with
  | nil => simp at h
  | cons x rest ih =>
    rw [find_ref_cons]
    by_cases hx : x.1 = kv.1
    · simp [hx]
    · simp only [List.mem_cons] at h
      rcases h with h | h
      · subst h; exact absurd rfl hx
      · simp [hx, ih h]

/-- The entry of key `ref` after a counter was rewritten. -/
theorem find_ref_update_ref (f : Nat → Nat) (r ref : Nat) (images : images_t) :
    find_ref (update_ref f r images) ref
      = (find_ref images ref).map fun kv =>
          if kv.1 = r then (kv.1, { kv.2 with refcount := f kv.2.refcount }) else kv := by
  induction images with
  | nil => rfl
  | cons x rest ih =>
    by_cases hx : x.1 = r
    · have e : update_ref f r (x :: rest)
          = (x.1, { x.2 with refcount := f x.2.refcount }) :: rest := by
        simp [update_ref, hx]
      rw [e, find_ref_cons, find_ref_cons]
      by_cases hk : x.1 = ref
      · rw [if_pos hk, if_pos hk, Option.map_some', if_pos hx]
      · rw [if_neg hk, if_neg hk]
        cases hfr : find_ref rest ref with
        | none => rfl
        | some kv =>
          have hkey := find_ref_key rest ref kv hfr
          have hne : ¬ kv.1 = r := fun e => hk (hx.trans (e.symm.trans hkey))
          rw [Option.map_some', if_neg hne]
    · have e : update_ref f r (x :: rest) = x :: update_ref f r rest := by
        simp [update_ref, hx]
      rw [e, find_ref_cons, find_ref_cons]
      by_cases hk : x.1 = ref
      · rw [if_pos hk, if_pos hk, Option.map_some', if_neg hx]
      · rw [if_neg hk, if_neg hk]
        exact ih

theorem mem_update_ref (f : Nat → Nat) (r : Nat) (x : Nat × image_source_t)
    (images : images_t) (h : x ∈ update_ref f r images) :
    x ∈ images ∨ ∃ kv, find_ref images r = some kv
      ∧ x = (kv.1, { kv.2 with refcount := f kv.2.refcount }) := by
  induction images with
  | nil => simp [update_ref] at h
  | cons y rest ih =>
    unfold update_ref at h
    by_cases hy : y.1 = r
    · simp only [hy, if_true, List.mem_cons] at h
      rcases h with h | h
      · exact Or.inr ⟨y, by simp [find_ref_cons, hy], by simpa [hy] using h⟩
      · exact Or.inl (List.mem_cons_of_mem _ h)
    · simp only [hy, if_false, List.mem_cons] at h
      rcases h with h | h
      · exact Or.inl (by simp [h])
      · rcases ih h with h | ⟨kv, hk, hx⟩
        · exact Or.inl (List.mem_cons_of_mem _ h)
        · exact Or.inr ⟨kv, by simp [find_ref_cons, hy, hk], hx⟩

theorem find_ref_emplace (r ref : Nat) (v : image_source_t) (images : images_t)
    (h : find_ref images r = none) :
    find_ref (emplace r v images) ref = if r = ref then some (r, v) else find_ref images ref := by
  induction images with
  | nil =>
    have e : emplace r v [] = [(r, v)] := rfl
    rw [e, find_ref_cons]
  | cons x rest ih =>
    rw [find_ref_cons] at h
    by_cases hx : x.1 = r
    · rw [if_pos hx] at h; cases h
    · rw [if_neg hx] at h
      have hx2 : ¬ r = x.1 := fun e => hx e.symm
      by_cases hlt : r < x.1
      · have e : emplace r v (x :: rest) = (r, v) :: x :: rest := by
          simp [emplace, hlt]
        rw [e, find_ref_cons]
      · have e : emplace r v (x :: rest) = x :: emplace r v rest := by
          simp [emplace, hlt, hx2]
        rw [e, find_ref_cons, find_ref_cons, ih h]
        by_cases hk : x.1 = ref
        · have hr : ¬ r = ref := fun e => hx (hk.trans e.symm)
          rw [if_pos hk, if_pos hk, if_neg hr]
        · rw [if_neg hk, if_neg hk]

theorem mem_emplace (r : Nat) (v : image_source_t) (x : Nat × image_source_t)
    (images : images_t) (h : x ∈ emplace r v images) : x ∈ images ∨ x = (r, v) := by
  induction images with
  | nil => simp [emplace] at h; exact Or.inr h
  | cons y rest ih =>
    unfold emplace at h
    by_cases hlt : r < y.1
    · simp only [hlt, if_true, List.mem_cons] at h
      rcases h with h | h | h
      · exact Or.inr h
      · exact Or.inl (by simp [h])
      · exact Or.inl (List.mem_cons_of_mem _ h)
    · by_cases he : r = y.1
      · rw [if_neg hlt, if_pos he] at h
        exact Or.inl h
      · rw [if_neg hlt, if_neg he, List.mem_cons] at h
        rcases h with h | h
        · exact Or.inl (by simp [h])
        · rcases ih h with h | h
          · exact Or.inl (List.mem_cons_of_mem _ h)
          · exact Or.inr h

theorem isSome_update_ref (f : Nat → Nat) (r ref : Nat) (images : images_t)
    (h : (find_ref images ref).isSome = true) :
    (find_ref (update_ref f r images) ref).isSome = true := by
  rw [find_ref_update_ref]
  cases hf : find_ref images ref with
  | none => rw [hf] at h; cases h
  | some kv => rfl

theorem mem_erase_ref (r : Nat) (x : Nat × image_source_t) (images : images_t)
    (h : x ∈ erase_ref r images) : x ∈ images := by
  induction images with
  | nil => simp [erase_ref] at h
  | cons y rest ih =>
    unfold erase_ref at h
    by_cases hy : y.1 = r
    · rw [if_pos hy] at h
      exact List.mem_cons_of_mem _ h
    · rw [if_neg hy, List.mem_cons] at h
      rcases h with h | h
      · exact List.mem_cons.mpr (Or.inl h)
      · exact List.mem_cons_of_mem _ (ih h)

theorem find_ref_erase_ref (r ref : Nat) (images : images_t) (h : r ≠ ref) :
    find_ref (erase_ref r images) ref = find_ref images ref := by
  induction images with
  | nil => rfl
  | cons x rest ih =>
    by_cases hx : x.1 = r
    · have e : erase_ref r (x :: rest) = rest := by simp [erase_ref, hx]
      have hk : ¬ x.1 = ref := fun e => h (hx.symm.trans e)
      rw [e, find_ref_cons, if_neg hk]
    · have e : erase_ref r (x :: rest) = x :: erase_ref r rest := by simp [erase_ref, hx]
      rw [e, find_ref_cons, find_ref_cons, ih]

/-- The button "Hide" on a state that keeps the invariant: the counter of an image that a
binding holds goes down but stays above `0`, so its entry stays in the cache. -/
theorem gallery_inv_hide (g : gallery) (i : Nat) (hi : i < g.imgs.length)
    (hg : gallery_inv g) :
    gallery_inv (hide_image i g)
      ∧ ((hide_image i g).imgs.getD i image_t.blank).ref = 0
      ∧ (hide_image i g).imgs.length = g.imgs.length
      ∧ (hide_image i g).imgs
          = g.imgs.set i (release_image g.images (g.imgs.getD i image_t.blank)).2
      ∧ ∀ ref, ref ≠ (g.imgs.getD i image_t.blank).ref →
          (find_ref g.images ref).isSome = true →
          (find_ref (hide_image i g).images ref).isSome = true := by
  obtain ⟨hN, hH, hB⟩ := hg
  have hmem := getD_mem g.imgs i hi
  cases hr : find_ref g.images (g.imgs.getD i image_t.blank).ref with
  | none =>
    have e : hide_image i g = g := by
      simp only [hide_image, release_image, hr]
      rw [set_getD_self]
    have hz : (g.imgs.getD i image_t.blank).ref = 0 := by
      by_contra hne
      have := hB _ hmem hne
      rw [hr] at this
      cases this
    have e2 : (release_image g.images (g.imgs.getD i image_t.blank)).2
        = g.imgs.getD i image_t.blank := by
      simp only [release_image, hr]
    rw [e2, set_getD_self, e]
    exact ⟨⟨hN, hH, hB⟩, hz, rfl, rfl, fun _ _ h => h⟩
  | some kv0 =>
    have hkey := find_ref_key _ _ _ hr
    have hrc0 := hN kv0 (find_ref_mem _ _ _ hr)
    have hdec : refcount_dec kv0.2.refcount = kv0.2.refcount - 1 := by
      unfold refcount_dec
      rw [if_neg hrc0]
    have hB2 : ∀ images2 : images_t,
        (∀ ref, ref ≠ 0 → (find_ref g.images ref).isSome = true →
          (find_ref images2 ref).isSome = true) →
        ∀ img ∈ g.imgs.set i { g.imgs.getD i image_t.blank with ref := 0 },
          img.ref ≠ 0 → (find_ref images2 img.ref).isSome = true := by
      intro images2 hsome img himg hne
      rcases mem_set _ _ _ _ himg with h | h
      · subst h; exact absurd rfl hne
      · exact hsome _ hne (hB img h hne)
    by_cases hnz : refcount_dec kv0.2.refcount = 0
    · -- the entry is erased: only for the null key, which no binding counts as held
      have ha : (g.imgs.getD i image_t.blank).ref = 0 := by
        by_contra hne
        have hcount := hH _ kv0 hne hr
        have hpos := holders_pos _ g.imgs _ hmem rfl
        rw [hdec] at hnz
        omega
      have e2 : (release_image g.images (g.imgs.getD i image_t.blank)).2
          = { g.imgs.getD i image_t.blank with ref := 0 } := by
        simp only [release_image, hr, hnz, if_true]
      have e : hide_image i g
          = { images := erase_ref (g.imgs.getD i image_t.blank).ref g.images,
              imgs := g.imgs.set i { g.imgs.getD i image_t.blank with ref := 0 } } := by
        simp only [hide_image, release_image, hr, hnz, if_true]
      rw [e2, e]
      refine ⟨⟨?_, ?_, ?_⟩, ?_, ?_, rfl, ?_⟩
      · intro x hx
        exact hN x (mem_erase_ref _ _ _ hx)
      · intro ref kv hne hkv
        dsimp only at hkv ⊢
        rw [find_ref_erase_ref _ _ _ (by rw [ha]; exact fun e => hne e.symm)] at hkv
        have hc1 := hH ref kv hne hkv
        have hs := holders_set ref { g.imgs.getD i image_t.blank with ref := 0 } g.imgs i hi
        rw [ha] at hs
        dsimp only at hs
        omega
      · apply hB2
        intro ref hne h
        rw [find_ref_erase_ref _ _ _ (by rw [ha]; exact fun e => hne e.symm)]
        exact h
      · rw [getD_set_self _ _ _ hi]
      · simp
      · intro ref hne h
        dsimp only
        rw [find_ref_erase_ref _ _ _ (fun e => hne e.symm)]
        exact h
    · have e2 : (release_image g.images (g.imgs.getD i image_t.blank)).2
          = { g.imgs.getD i image_t.blank with ref := 0 } := by
        simp only [release_image, hr, hnz, if_false]
      have e : hide_image i g
          = { images := update_ref refcount_dec (g.imgs.getD i image_t.blank).ref g.images,
              imgs := g.imgs.set i { g.imgs.getD i image_t.blank with ref := 0 } } := by
        simp only [hide_image, release_image, hr, hnz, if_false]
      rw [e2, e]
      refine ⟨⟨?_, ?_, ?_⟩, ?_, ?_, rfl, ?_⟩
      · intro x hx
        rcases mem_update_ref _ _ _ _ hx with hx | ⟨kv, hkv, hx⟩
        · exact hN x hx
        · rw [hr] at hkv
          injection hkv with hkv
          subst hkv
          subst hx
          exact hnz
      · intro ref kv hne hkv
        rw [find_ref_update_ref] at hkv
        cases hf : find_ref g.images ref with
        | none => rw [hf] at hkv; cases hkv
        | some kv1 =>
          rw [hf, Option.map_some'] at hkv
          injection hkv with hkv
          have hkey1 := find_ref_key _ _ _ hf
          have hc1 := hH ref kv1 hne hf
          have hs := holders_set ref { g.imgs.getD i image_t.blank with ref := 0 } g.imgs i hi
          have hz : ¬ (0 : Nat) = ref := fun e => hne e.symm
          simp only [hz, if_false] at hs
          by_cases hsame : kv1.1 = (g.imgs.getD i image_t.blank).ref
          · rw [if_pos hsame] at hkv
            subst hkv
            have hrr : (g.imgs.getD i image_t.blank).ref = ref := hsame.symm.trans hkey1
            rw [if_pos hrr] at hs
            rw [← hrr, hr] at hf
            injection hf with hf
            subst hf
            show _ ≤ refcount_dec kv0.2.refcount
            rw [hdec]
            dsimp only at hs ⊢
            omega
          · rw [if_neg hsame] at hkv
            subst hkv
            have hrr : ¬ (g.imgs.getD i image_t.blank).ref = ref :=
              fun e => hsame (hkey1.trans e.symm)
            rw [if_neg hrr] at hs
            dsimp only at hs ⊢
            omega
      · apply hB2
        intro ref _ h
        exact isSome_update_ref _ _ _ _ h
      · rw [getD_set_self _ _ _ hi]
      · simp
      · intro ref _ h
        exact isSome_update_ref _ _ _ _ h

/-- Binding a slot without image to an entry of the cache keeps the invariant. -/
theorem gallery_inv_bump (g : gallery) (i k : Nat) (x : image_t) (hi : i < g.imgs.length)
    (hg : gallery_inv g) (hz : (g.imgs.getD i image_t.blank).ref = 0)
    (hk : (find_ref g.images k).isSome = true) :
    gallery_inv { images := update_ref (· + 1) k g.images,
                  imgs := g.imgs.set i { x with ref := k } } := by
  obtain ⟨hN, hH, hB⟩ := hg
  refine ⟨?_, ?_, ?_⟩
  · intro y hy
    rcases mem_update_ref _ _ _ _ hy with hy | ⟨kv, hkv, hy⟩
    · exact hN y hy
    · subst hy
      exact Nat.succ_ne_zero _
  · intro ref kv hne hkv
    rw [find_ref_update_ref] at hkv
    cases hf : find_ref g.images ref with
    | none => rw [hf] at hkv; cases hkv
    | some kv1 =>
      rw [hf, Option.map_some'] at hkv
      injection hkv with hkv
      have hkey1 := find_ref_key _ _ _ hf
      have hc1 := hH ref kv1 hne hf
      have hs := holders_set ref { x with ref := k } g.imgs i hi
      have hz2 : ¬ (g.imgs.getD i image_t.blank).ref = ref := by
        rw [hz]; exact fun e => hne e.symm
      rw [if_neg hz2] at hs
      by_cases hsame : kv1.1 = k
      · rw [if_pos hsame] at hkv
        subst hkv
        show holders ref _ + 1 ≤ kv1.2.refcount + 1
        have hkk : k = ref := hsame.symm.trans hkey1
        simp only [hkk, if_true] at hs
        rw [hkk]
        dsimp only at hs ⊢
        omega
      · rw [if_neg hsame] at hkv
        subst hkv
        have hkk : ¬ k = ref := fun e => hsame (hkey1.trans e.symm)
        simp only [hkk, if_false] at hs
        dsimp only at hs ⊢
        omega
  · intro img himg hne
    rcases mem_set _ _ _ _ himg with h | h
    · subst h; exact isSome_update_ref _ _ _ _ hk
    · exact isSome_update_ref _ _ _ _ (hB img h hne)

/-- Binding a slot to a file that is loaded keeps the invariant. -/
theorem gallery_inv_load (g : gallery) (i r : Nat) (file : String) (x : image_t)
    (hi : i < g.imgs.length) (hg : gallery_inv g) (hr : find_ref g.images r = none) :
    gallery_inv { images := update_ref (· + 1) r (emplace r { refcount := 1, file := file } g.images),
                  imgs := g.imgs.set i { x with ref := r } } := by
  obtain ⟨hN, hH, hB⟩ := hg
  refine ⟨?_, ?_, ?_⟩
  · intro y hy
    rcases mem_update_ref _ _ _ _ hy with hy | ⟨kv, hkv, hy⟩
    · rcases mem_emplace _ _ _ _ hy with hy | hy
      · exact hN y hy
      · subst hy; exact Nat.one_ne_zero
    · subst hy
      exact Nat.succ_ne_zero _
  · intro ref kv hne hkv
    rw [find_ref_update_ref, find_ref_emplace _ _ _ _ hr] at hkv
    have hs := holders_set ref { x with ref := r } g.imgs i hi
    by_cases hrr : r = ref
    · subst hrr
      have hnone : holders r g.imgs = 0 := by
        apply holders_zero
        intro img himg e
        have := hB img himg (by rw [e]; exact hne)
        rw [e, hr] at this
        cases this
      rw [if_pos rfl, Option.map_some', if_pos rfl] at hkv
      injection hkv with hkv
      subst hkv
      rw [if_pos rfl] at hs
      show holders r _ + 1 ≤ 1 + 1
      dsimp only at hs ⊢
      omega
    · rw [if_neg hrr] at hkv
      cases hf : find_ref g.images ref with
      | none => rw [hf] at hkv; cases hkv
      | some kv1 =>
        rw [hf, Option.map_some'] at hkv
        have hkey1 := find_ref_key _ _ _ hf
        have hne1 : ¬ kv1.1 = r := fun e => hrr (e.symm.trans hkey1)
        rw [if_neg hne1] at hkv
        injection hkv with hkv
        subst hkv
        have hc1 := hH ref kv1 hne hf
        simp only [hrr, if_false] at hs
        dsimp only at hs ⊢
        omega
  · intro img himg hne
    have hsome : ∀ ref, (find_ref g.images ref).isSome = true →
        (find_ref (update_ref (· + 1) r
          (emplace r { refcount := 1, file := file } g.images)) ref).isSome = true := by
      intro ref h
      apply isSome_update_ref
      rw [find_ref_emplace _ _ _ _ hr]
      by_cases hrr : r = ref
      · rw [if_pos hrr]; rfl
      · rw [if_neg hrr]; exact h
    rcases mem_set _ _ _ _ himg with h | h
    · subst h
      apply isSome_update_ref
      rw [find_ref_emplace _ _ _ _ hr, if_pos rfl]
      rfl
    · exact hsome _ (hB img h hne)

/-- The button "Show" on a state that keeps the invariant. -/
theorem gallery_inv_show (g : gallery) (tex : Option Nat) (file : String) (i : Nat)
    (hi : i < g.imgs.length) (hfresh : fresh tex file g.images) (hg : gallery_inv g) :
    gallery_inv (show_image tex file i g) := by
  have hself : ({ images := g.images, imgs := g.imgs.set i (g.imgs.getD i image_t.blank) }
      : gallery) = g := by
    rw [set_getD_self]
  cases hfile : find_file g.images file with
  | none =>
    cases tex with
    | none =>
      have e : show_image none file i g = g := by
        simp only [show_image, obtain_image, hfile]
        exact hself
      rw [e]
      exact hg
    | some r =>
      have hr := hfresh hfile r rfl
      have e : show_image (some r) file i g
          = { images := update_ref (· + 1) r
                (emplace r { refcount := 1, file := file } g.images),
              imgs := g.imgs.set i { g.imgs.getD i image_t.blank with ref := r } } := by
        simp only [show_image, obtain_image, hfile]
      rw [e]
      exact gallery_inv_load g i r file _ hi hg hr
  | some kv =>
    by_cases hsame : (g.imgs.getD i image_t.blank).ref = kv.1
    · have e : show_image tex file i g = g := by
        simp only [show_image, obtain_image, hfile, hsame, if_true]
        exact hself
      rw [e]
      exact hg
    · obtain ⟨hinv, hz, hlen, himgs, hsome⟩ := gallery_inv_hide g i hi hg
      have e : show_image tex file i g
          = { images := update_ref (· + 1) kv.1 (hide_image i g).images,
              imgs := (hide_image i g).imgs.set i
                { (release_image g.images (g.imgs.getD i image_t.blank)).2 with ref := kv.1 } } := by
        rw [himgs, List.set_set]
        simp only [show_image, obtain_image, hfile, hsame, if_false, hide_image]
      rw [e]
      exact gallery_inv_bump (hide_image i g) i kv.1 _ (by rw [hlen]; exact hi) hinv hz
        (hsome _ (fun e => hsame e.symm) (find_ref_of_mem _ _ (find_file_mem _ _ _ hfile)))

theorem gallery_inv_reachable (g : gallery) (h : gallery_reachable g) : gallery_inv g := by
  induction h with
  | start imgs h0 =>
    refine ⟨fun kv hkv => (by cases hkv), fun ref kv _ hkv => (by cases hkv), ?_⟩
    intro img himg hne
    exact absurd (h0 img himg) hne
  | shown g tex file i hi hfresh _ ih => exact gallery_inv_show g tex file i hi hfresh ih
  | hidden g i hi _ ih => exact (gallery_inv_hide g i hi ih).1

/-- C10: in every state that "Show" and "Hide" reach from an empty cache and
bindings without image (the loader answering, for a file not in the cache, with
a texture that is not in the cache), the handle of a binding that is not null is
the key of an entry of the cache, and no entry of the cache has the count `0`. -/
theorem gallery_reachable_sound (g : gallery) (h : gallery_reachable g) :
    (∀ img ∈ g.imgs, img.ref ≠ 0 → ∃ kv ∈ g.images, kv.1 = img.ref)
      ∧ (∀ kv ∈ g.images, kv.2.refcount ≠ 0) := by
  obtain ⟨hN, _, hB⟩ := gallery_inv_reachable g h
  refine ⟨fun img himg hne => ?_, fun kv hkv => hN kv hkv⟩
  have hs := hB img himg hne
  cases hf : find_ref g.images img.ref with
  | none => rw [hf] at hs; cases hs
  | some kv => exact ⟨kv, find_ref_mem _ _ _ hf, find_ref_key _ _ _ hf⟩

/-- C10, an instance: two bindings, the first shown `a.dds`, the second shown the
same file, the first hidden again. -/
theorem gallery_reachable_sound_witness :
    hide_image 0 (show_image (some 8) "a.dds" 1 (show_image (some 7) "a.dds" 0
        { images := [], imgs := [image_t.blank, image_t.blank] }))
        = { images := [(7, { refcount := 2, file := "a.dds" })],
            imgs := [image_t.blank, { image_t.blank with ref := 7 }] }
      ∧ ((∀ img ∈ [image_t.blank, { image_t.blank with ref := 7 }],
            img.ref ≠ 0 → ∃ kv ∈ [(7, ({ refcount := 2, file := "a.dds" } : image_source_t))],
              kv.1 = img.ref)
        ∧ (∀ kv ∈ [(7, ({ refcount := 2, file := "a.dds" } : image_source_t))],
            kv.2.refcount ≠ 0)) :=
  ⟨by decide,
   gallery_reachable_sound
     (hide_image 0 (show_image (some 8) "a.dds" 1 (show_image (some 7) "a.dds" 0
        { images := [], imgs := [image_t.blank, image_t.blank] })))
     (.hidden _ 0 (by decide)
       (.shown _ (some 8) "a.dds" 1 (by decide) (fun h => by revert h; decide)
         (.shown _ (some 7) "a.dds" 0 (by decide) (fun _ ref h => by cases h; rfl)
           (.start _ (by decide)))))⟩

/-! ## The variables panel -/

theorem selected_of_index (p : variables_panel) (i : Nat) (hsel : p.varsel = (i : Int)) :
    selected p = p.vars[i]? := by
  unfold selected
  rw [hsel, if_pos (Int.ofNat_nonneg i)]
  rfl

theorem copy_as_new_eq (name : String) (p : variables_panel) (i : Nat) (v : variable_t)
    (hsel : p.varsel = (i : Int)) (hv : p.vars[i]? = some v) :
    copy_as_new name p
      = some { vars := { v with deletable := true, name := name } :: p.vars,
               varsel := 0, read_only := false, params := p.params } := by
  unfold copy_as_new
  rw [selected_of_index p i hsel, hv, hsel, if_pos (Int.ofNat_nonneg i)]
  rfl

/-- C16: with entry `i` selected, "Copy as new" with the name `name` puts at the
front a copy of entry `i` with that name and `deletable = true` (parameters,
info and producer as in entry `i`, whatever its flag was), keeps the old entries
behind it in their order, and selects index `0`. -/
theorem copy_as_new_front (name : String) (p : variables_panel) (i : Nat) (v : variable_t)
    (hsel : p.varsel = (i : Int)) (hv : p.vars[i]? = some v) :
    copy_as_new name p
      = some { vars := { name := name, params := v.params, info := v.info, deletable := true,
                         producer := v.producer } :: p.vars,
               varsel := 0, read_only := false, params := p.params } :=
  copy_as_new_eq name p i v hsel hv

/-- C16, an instance: the copy of a built-in entry at index 1. -/
theorem copy_as_new_front_witness :
    copy_as_new "mine"
        { vars := [⟨"date", "%d", "the date", false, 1⟩, ⟨"time", "%H", "the time", false, 2⟩],
          varsel := 1, read_only := true, params := "%H" }
      = some { vars := [⟨"mine", "%H", "the time", true, 2⟩, ⟨"date", "%d", "the date", false, 1⟩,
                        ⟨"time", "%H", "the time", false, 2⟩],
               varsel := 0, read_only := false, params := "%H" } :=
  copy_as_new_front "mine" _ 1 ⟨"time", "%H", "the time", false, 2⟩ rfl rfl

/-- C15: with entry `i` selected, "Copy as new" followed by "Delete" and "Are you
sure?" (the selection is then the copy, at index `0`) gives back the list as it
was: the same entries in the same order, entry `i` and its flag included. -/
theorem copy_then_delete (name : String) (p : variables_panel) (i : Nat) (v : variable_t)
    (hsel : p.varsel = (i : Int)) (hv : p.vars[i]? = some v) :
    (copy_as_new name p).bind delete_variable
      = some { vars := p.vars, varsel := -1, read_only := true, params := p.params } := by
  rw [copy_as_new_eq name p i v hsel hv]
  simp [Option.bind, delete_variable, selected]

/-- C15, an instance: copying the built-in entry at index 1 and deleting the
copy. -/
theorem copy_then_delete_witness :
    (copy_as_new "mine"
        { vars := [⟨"date", "%d", "the date", false, 1⟩, ⟨"time", "%H", "the time", false, 2⟩],
          varsel := 1, read_only := true, params := "%H" }).bind delete_variable
      = some { vars := [⟨"date", "%d", "the date", false, 1⟩,
                        ⟨"time", "%H", "the time", false, 2⟩],
               varsel := -1, read_only := true, params := "%H" } :=
  copy_then_delete "mine" _ 1 ⟨"time", "%H", "the time", false, 2⟩ rfl rfl

/-- C17: "Delete" with nothing selected, or on an entry with `deletable = false`,
opens no popup and leaves the panel and its list as they are; on an entry with
`deletable = true` the popup opens and "Are you sure?" erases exactly entry `i`. -/
theorem delete_guard (p : variables_panel) :
    (p.varsel = -1 → delete_opens p = some false ∧ delete_variable p = some p)
      ∧ (∀ (i : Nat) (v : variable_t), p.varsel = (i : Int) → p.vars[i]? = some v →
          v.deletable = false → delete_opens p = some false ∧ delete_variable p = some p)
      ∧ (∀ (i : Nat) (v : variable_t), p.varsel = (i : Int) → p.vars[i]? = some v →
          v.deletable = true →
          delete_opens p = some true
            ∧ delete_variable p
              = some { vars := p.vars.take i ++ p.vars.drop (i + 1), varsel := -1,
                       read_only := true, params := p.params }) := by
  refine ⟨fun h => ?_, fun i v hsel hv hd => ?_, fun i v hsel hv hd => ?_⟩
  · unfold delete_opens delete_variable
    rw [h]
    exact ⟨rfl, rfl⟩
  · unfold delete_opens delete_variable
    rw [selected_of_index p i hsel, hv, hsel, if_pos (Int.ofNat_nonneg i)]
    simp [hd]
  · unfold delete_opens delete_variable
    rw [selected_of_index p i hsel, hv, hsel, if_pos (Int.ofNat_nonneg i)]
    simp [hd, List.eraseIdx_eq_take_drop_succ]

/-- C17, three instances: nothing selected, a built-in entry selected, a user
entry selected. -/
theorem delete_guard_witness :
    delete_variable { vars := [⟨"date", "%d", "the date", false, 1⟩], varsel := -1,
                      read_only := true, params := "" }
        = some { vars := [⟨"date", "%d", "the date", false, 1⟩], varsel := -1,
                 read_only := true, params := "" }
      ∧ delete_variable { vars := [⟨"date", "%d", "the date", false, 1⟩], varsel := 0,
                          read_only := true, params := "%d" }
        = some { vars := [⟨"date", "%d", "the date", false, 1⟩], varsel := 0,
                 read_only := true, params := "%d" }
      ∧ delete_variable
          { vars := [⟨"mine", "%d", "the date", true, 1⟩, ⟨"date", "%d", "the date", false, 1⟩],
            varsel := 0, read_only := false, params := "%d" }
        = some { vars := [⟨"date", "%d", "the date", false, 1⟩], varsel := -1,
                 read_only := true, params := "%d" } :=
  ⟨((delete_guard { vars := [⟨"date", "%d", "the date", false, 1⟩], varsel := -1,
                    read_only := true, params := "" }).1 rfl).2,
   ((delete_guard { vars := [⟨"date", "%d", "the date", false, 1⟩], varsel := 0,
                    read_only := true, params := "%d" }).2.1 0
      ⟨"date", "%d", "the date", false, 1⟩ rfl rfl rfl).2,
   ((delete_guard
      { vars := [⟨"mine", "%d", "the date", true, 1⟩, ⟨"date", "%d", "the date", false, 1⟩],
        varsel := 0, read_only := false, params := "%d" }).2.2 0
      ⟨"mine", "%d", "the date", true, 1⟩ rfl rfl rfl).2⟩

theorem swap_at_spec (l : List variable_t) (i j : Nat) (hi : i < l.length)
    (hj : j < l.length) :
    ∃ l2, swap_at l i j = some l2 ∧ l2.length = l.length ∧ l2[j]? = l[i]?
      ∧ (i ≠ j → l2[i]? = l[j]?) ∧ ∀ k, k ≠ i → k ≠ j → l2[k]? = l[k]? := by
  refine ⟨(l.set i l[j]).set j l[i], ?_, by simp, ?_, ?_, ?_⟩
  · unfold swap_at
    rw [List.getElem?_eq_getElem hi, List.getElem?_eq_getElem hj]
  · rw [List.getElem?_set_self (by simpa using hj), List.getElem?_eq_getElem hi]
  · intro hne
    rw [List.getElem?_set_ne (fun e => hne e.symm), List.getElem?_set_self hi,
      List.getElem?_eq_getElem hj]
  · intro k hki hkj
    rw [List.getElem?_set_ne (fun e => hkj e.symm), List.getElem?_set_ne (fun e => hki e.symm)]

/-- C19: "Move up" with entry `i > 0` selected exchanges the entries `i - 1` and
`i` and selects `i - 1`; "Move down" with entry `i`, `i + 1 < size`, selected
exchanges the entries `i` and `i + 1` and selects `i + 1`; every other entry
keeps its place.  With the first entry selected "Move up", with the last entry
selected "Move down", and with nothing selected both, change nothing. -/
theorem move_up_down (p : variables_panel) :
    (∀ i : Nat, p.varsel = (i : Int) → 0 < i → i < p.vars.length →
        ∃ q, move_up p = some q ∧ q.varsel = ((i - 1 : Nat) : Int)
          ∧ q.vars.length = p.vars.length
          ∧ q.vars[i - 1]? = p.vars[i]? ∧ q.vars[i]? = p.vars[i - 1]?
          ∧ ∀ k, k ≠ i → k ≠ i - 1 → q.vars[k]? = p.vars[k]?)
      ∧ (∀ i : Nat, p.varsel = (i : Int) → i + 1 < p.vars.length →
        ∃ q, move_down p = some q ∧ q.varsel = ((i + 1 : Nat) : Int)
          ∧ q.vars.length = p.vars.length
          ∧ q.vars[i + 1]? = p.vars[i]? ∧ q.vars[i]? = p.vars[i + 1]?
          ∧ ∀ k, k ≠ i → k ≠ i + 1 → q.vars[k]? = p.vars[k]?)
      ∧ (p.varsel = 0 → move_up p = some p)
      ∧ (∀ i : Nat, p.varsel = (i : Int) → i + 1 = p.vars.length → move_down p = some p)
      ∧ (p.varsel = -1 → move_up p = some p ∧ move_down p = some p) := by
  refine ⟨fun i hsel h0 hi => ?_, fun i hsel hi => ?_, fun h => ?_, fun i hsel hi => ?_,
    fun h => ?_⟩
  · obtain ⟨l2, hs, hlen, hj, hij, hk⟩ := swap_at_spec p.vars i (i - 1) hi (by omega)
    have e1 : p.varsel.toNat = i := by rw [hsel]; rfl
    have e2 : (p.varsel - 1).toNat = i - 1 := by rw [hsel]; omega
    refine ⟨{ p with vars := l2, varsel := p.varsel - 1 }, ?_, ?_, hlen, hj,
      hij (by omega), fun k hki hkj => hk k hki hkj⟩
    · unfold move_up
      rw [if_pos (by omega), e1, e2, hs]
      rfl
    · show p.varsel - 1 = _
      omega
  · obtain ⟨l2, hs, hlen, hj, hij, hk⟩ := swap_at_spec p.vars i (i + 1) (by omega) hi
    have e1 : p.varsel.toNat = i := by rw [hsel]; rfl
    have e2 : (p.varsel + 1).toNat = i + 1 := by rw [hsel]; omega
    refine ⟨{ p with vars := l2, varsel := p.varsel + 1 }, ?_, ?_, hlen, hj,
      hij (by omega), fun k hki hkj => hk k hki hkj⟩
    · unfold move_down
      rw [if_pos ⟨by omega, by omega⟩, e1, e2, hs]
      rfl
    · show p.varsel + 1 = _
      omega
  · unfold move_up
    rw [if_neg (by omega)]
  · unfold move_down
    rw [if_neg (by omega)]
  · unfold move_up move_down
    rw [if_neg (by omega), if_neg (by omega)]
    exact ⟨rfl, rfl⟩

/-- C19, three instances on a list of three entries: "Move up" from index 1,
"Move down" from index 1, "Move up" from index 0. -/
theorem move_up_down_witness :
    move_up { vars := [⟨"a", "", "", false, 1⟩, ⟨"b", "", "", true, 2⟩, ⟨"c", "", "", false, 3⟩],
              varsel := 1, read_only := false, params := "" }
        = some { vars := [⟨"b", "", "", true, 2⟩, ⟨"a", "", "", false, 1⟩,
                          ⟨"c", "", "", false, 3⟩],
                 varsel := 0, read_only := false, params := "" }
      ∧ move_down
          { vars := [⟨"a", "", "", false, 1⟩, ⟨"b", "", "", true, 2⟩, ⟨"c", "", "", false, 3⟩],
            varsel := 1, read_only := false, params := "" }
        = some { vars := [⟨"a", "", "", false, 1⟩, ⟨"c", "", "", false, 3⟩,
                          ⟨"b", "", "", true, 2⟩],
                 varsel := 2, read_only := false, params := "" }
      ∧ move_up
          { vars := [⟨"a", "", "", false, 1⟩, ⟨"b", "", "", true, 2⟩, ⟨"c", "", "", false, 3⟩],
            varsel := 0, read_only := true, params := "" }
        = some { vars := [⟨"a", "", "", false, 1⟩, ⟨"b", "", "", true, 2⟩,
                          ⟨"c", "", "", false, 3⟩],
                 varsel := 0, read_only := true, params := "" } :=
  ⟨by decide, by decide,
   (move_up_down
      { vars := [⟨"a", "", "", false, 1⟩, ⟨"b", "", "", true, 2⟩, ⟨"c", "", "", false, 3⟩],
        varsel := 0, read_only := true, params := "" }).2.2.1 rfl⟩

/-- C18, at the failing input: after the button "Load", from any state of the
panel, nothing is selected and the parameter field is writable; an edit of the
field is taken and stored through `journal.variables[-1]`, outside the vector. -/
theorem load_then_edit (loaded : List variable_t) (p : variables_panel) (text : String) :
    (load_button loaded p).varsel = -1
      ∧ (load_button loaded p).read_only = false
      ∧ edit_params text (load_button loaded p) = none := by
  refine ⟨rfl, rfl, ?_⟩
  unfold edit_params selected load_button
  simp

/-- Every button of the panel other than "Load" keeps the parameter field tied
to a deletable selected entry. -/
theorem panel_ok_kept (p : variables_panel) (hp : panel_ok p) :
    panel_ok (variables_panel.start p.vars)
      ∧ (∀ i, panel_ok (select_variable i p))
      ∧ (∀ q, move_up p = some q → panel_ok q)
      ∧ (∀ q, move_down p = some q → panel_ok q)
      ∧ (∀ name q, copy_as_new name p = some q → panel_ok q)
      ∧ (∀ q, delete_variable p = some q → panel_ok q)
      ∧ (∀ text q, edit_params text p = some q → panel_ok q) := by
  refine ⟨fun h => (by cases h), fun i => ?_, fun q hq => ?_, fun q hq => ?_,
    fun name q hq => ?_, fun q hq => ?_, fun text q hq => ?_⟩
  · unfold select_variable
    cases hv : p.vars[i]? with
    | none => exact hp
    | some v =>
      intro hro
      refine ⟨v, ?_, by simpa using hro⟩
      unfold selected
      dsimp only
      rw [if_pos (Int.ofNat_nonneg i)]
      exact hv
  · unfold move_up at hq
    by_cases h0 : p.varsel > 0
    · rw [if_pos h0] at hq
      cases hs : swap_at p.vars p.varsel.toNat (p.varsel - 1).toNat with
      | none => rw [hs] at hq; cases hq
      | some l2 =>
        rw [hs] at hq
        injection hq with hq
        subst hq
        intro hro
        obtain ⟨v, hv, hd⟩ := hp hro
        refine ⟨v, ?_, hd⟩
        unfold selected at hv ⊢
        dsimp only
        rw [if_pos (by omega)] at hv
        rw [if_pos (by omega)]
        have hi : p.varsel.toNat < p.vars.length := by
          by_contra hge
          rw [List.getElem?_eq_none (by omega)] at hv
          cases hv
        obtain ⟨l3, hs3, -, hj, -, -⟩ :=
          swap_at_spec p.vars p.varsel.toNat (p.varsel - 1).toNat hi (by omega)
        rw [hs] at hs3
        injection hs3 with hs3
        subst hs3
        rw [hj]
        exact hv
    · rw [if_neg h0] at hq
      injection hq with hq
      subst hq
      exact hp
  · unfold move_down at hq
    by_cases h0 : p.varsel ≥ 0 ∧ p.varsel + 1 < (p.vars.length : Int)
    · rw [if_pos h0] at hq
      cases hs : swap_at p.vars p.varsel.toNat (p.varsel + 1).toNat with
      | none => rw [hs] at hq; cases hq
      | some l2 =>
        rw [hs] at hq
        injection hq with hq
        subst hq
        intro hro
        obtain ⟨v, hv, hd⟩ := hp hro
        refine ⟨v, ?_, hd⟩
        unfold selected at hv ⊢
        dsimp only
        rw [if_pos (by omega)] at hv
        rw [if_pos (by omega)]
        obtain ⟨l3, hs3, -, hj, -, -⟩ :=
          swap_at_spec p.vars p.varsel.toNat (p.varsel + 1).toNat (by omega) (by omega)
        rw [hs] at hs3
        injection hs3 with hs3
        subst hs3
        rw [hj]
        exact hv
    · rw [if_neg h0] at hq
      injection hq with hq
      subst hq
      exact hp
  · unfold copy_as_new at hq
    by_cases h0 : 0 ≤ p.varsel
    · rw [if_pos h0] at hq
      cases hv : selected p with
      | none => rw [hv] at hq; cases hq
      | some v =>
        rw [hv] at hq
        injection hq with hq
        subst hq
        intro _
        exact ⟨{ v with deletable := true, name := name }, by simp [selected], rfl⟩
    · rw [if_neg h0] at hq
      injection hq with hq
      subst hq
      exact hp
  · unfold delete_variable at hq
    by_cases h0 : 0 ≤ p.varsel
    · rw [if_pos h0] at hq
      cases hv : selected p with
      | none => rw [hv] at hq; cases hq
      | some v =>
        rw [hv] at hq
        injection hq with hq
        subst hq
        dsimp only
        by_cases hd : v.deletable = true
        · rw [if_pos hd]
          intro h
          cases h
        · rw [if_neg hd]
          exact hp
    · rw [if_neg h0] at hq
      injection hq with hq
      subst hq
      exact hp
  · unfold edit_params at hq
    by_cases hro : p.read_only = true
    · rw [if_pos hro] at hq
      injection hq with hq
      subst hq
      exact hp
    · rw [if_neg hro] at hq
      obtain ⟨v, hv, hd⟩ := hp (by simpa using hro)
      rw [hv] at hq
      injection hq with hq
      subst hq
      intro _
      refine ⟨{ v with params := text }, ?_, hd⟩
      unfold selected at hv ⊢
      dsimp only
      by_cases h0 : 0 ≤ p.varsel
      · rw [if_pos h0] at hv
        rw [if_pos h0]
        have hi : p.varsel.toNat < p.vars.length := by
          by_contra hge
          rw [List.getElem?_eq_none (by omega)] at hv
          cases hv
        rw [List.getElem?_set_self hi]
      · rw [if_neg h0] at hv
        cases hv

/-- On a panel that keeps the parameter field tied to its selection, an edit of
the field is refused when the field is read only and else rewrites the
parameters of the selected entry, a deletable one, and of no other entry. -/
theorem edit_params_ok (text : String) (p : variables_panel) (hp : panel_ok p) :
    (p.read_only = true → edit_params text p = some p)
      ∧ (p.read_only = false → ∃ (i : Nat) (v : variable_t), p.varsel = (i : Int)
          ∧ p.vars[i]? = some v ∧ v.deletable = true
          ∧ edit_params text p
            = some { p with params := text,
                            vars := p.vars.set i { v with params := text } }) := by
  refine ⟨fun h => ?_, fun h => ?_⟩
  · unfold edit_params
    rw [if_pos h]
  · obtain ⟨v, hv, hd⟩ := hp h
    have h0 : 0 ≤ p.varsel := by
      by_contra hneg
      unfold selected at hv
      rw [if_neg hneg] at hv
      cases hv
    have hsel : p.varsel = (p.varsel.toNat : Int) := (Int.toNat_of_nonneg h0).symm
    refine ⟨p.varsel.toNat, v, hsel, ?_, hd, ?_⟩
    · rw [← selected_of_index p _ hsel]
      exact hv
    · unfold edit_params
      rw [if_neg (by simp [h]), hv]
      rfl

/-! ## Inserting and deleting pages -/

theorem selection_valid_of_lt (j : journal_t) (pos : Nat) (h : pos < j.pages.length) :
    selection_valid (pos : Int) j = true := by
  unfold selection_valid
  simp only [Bool.and_eq_true, decide_eq_true_eq]
  omega

/-- The loop of `draw_chapters` leaves alone a cursor whose spread is inside the
book, also where the unsigned sum wraps. -/
theorem adjust_cursor_keeps (m size c : Nat) (h : c + 2 ≤ size) :
    adjust_cursor m size c = some c := by
  have hle : uadd m c 2 ≤ size := Nat.le_trans (Nat.mod_le _ _) h
  cases c with
  | zero => simp only [adjust_cursor]; rw [if_neg (by omega)]
  | succ c => simp only [adjust_cursor]; rw [if_neg (by omega)]

/-- The loop of `draw_chapters` ends for every cursor once the book has two
pages. -/
theorem adjust_cursor_total (m size : Nat) (h2 : 2 ≤ size) :
    ∀ c, ∃ c2, adjust_cursor m size c = some c2 := by
  intro c
  induction c with
  | zero =>
    have hle : uadd m 0 2 ≤ size := Nat.le_trans (Nat.mod_le _ _) h2
    exact ⟨0, by simp only [adjust_cursor]; rw [if_neg (by omega)]⟩
  | succ c ih =>
    by_cases hc : uadd m (c + 1) 2 > size
    · obtain ⟨c2, h⟩ := ih
      exact ⟨c2, by simp only [adjust_cursor]; rw [if_pos hc, h]⟩
    · exact ⟨c + 1, by simp only [adjust_cursor]; rw [if_neg hc]⟩

theorem resize_short (pages : List page_t) (h : pages.length < 2) :
    resize pages 2 = pages ++ List.replicate (2 - pages.length) page_t.blank := by
  unfold resize
  rw [List.take_of_length_le (by omega)]

/-- C13: on a document that satisfies the spread invariant (the sum
`current_page + 2` staying below the modulus of the cursor), "Delete" and "Are
you sure?" on the page at the valid index `pos` leave the other pages in their
order, padded at the end with blank pages up to two pages, and bring the cursor
to the largest value not above the old one whose spread is inside the book:
unchanged when `current_page + 2 <= length` holds, never below `0`. -/
theorem delete_page_spec (m : Nat) (j : journal_t) (pos : Nat) (hinv : spread_inv j)
    (hpos : pos < j.pages.length) (hcur : j.current_page + 2 < m) :
    ∃ j2, delete_page m (pos : Int) j = some j2
      ∧ j2.pages = (j.pages.take pos ++ j.pages.drop (pos + 1))
          ++ List.replicate (2 - (j.pages.length - 1)) page_t.blank
      ∧ j2.current_page + 2 ≤ j2.pages.length
      ∧ j2.current_page ≤ j.current_page
      ∧ (j.current_page + 2 ≤ j2.pages.length → j2.current_page = j.current_page)
      ∧ ∀ c, c ≤ j.current_page → c + 2 ≤ j2.pages.length → c ≤ j2.current_page := by
  obtain ⟨h2, -, hc⟩ := hinv
  have hlen : (j.pages.eraseIdx pos).length = j.pages.length - 1 :=
    List.length_eraseIdx_of_lt hpos
  have herase : j.pages.eraseIdx pos = j.pages.take pos ++ j.pages.drop (pos + 1) :=
    List.eraseIdx_eq_take_drop_succ _ _
  have hpages : (if (j.pages.eraseIdx pos).length < 2 then resize (j.pages.eraseIdx pos) 2
        else j.pages.eraseIdx pos)
      = (j.pages.take pos ++ j.pages.drop (pos + 1))
          ++ List.replicate (2 - (j.pages.length - 1)) page_t.blank := by
    by_cases hs : (j.pages.eraseIdx pos).length < 2
    · rw [if_pos hs, resize_short _ hs, hlen, herase]
    · rw [if_neg hs, herase]
      have : 2 - (j.pages.length - 1) = 0 := by omega
      rw [this]
      simp
  have hsize : 2 ≤ ((j.pages.take pos ++ j.pages.drop (pos + 1))
      ++ List.replicate (2 - (j.pages.length - 1)) page_t.blank).length := by
    rw [← herase, List.length_append, hlen, List.length_replicate]
    omega
  have e : delete_page m (pos : Int) j
      = some { pages := (j.pages.take pos ++ j.pages.drop (pos + 1))
                 ++ List.replicate (2 - (j.pages.length - 1)) page_t.blank,
               current_page := min j.current_page
                 (((j.pages.take pos ++ j.pages.drop (pos + 1))
                   ++ List.replicate (2 - (j.pages.length - 1)) page_t.blank).length - 2) } := by
    unfold delete_page adjust
    rw [if_pos (selection_valid_of_lt j pos hpos)]
    simp only [Int.toNat_ofNat]
    rw [hpages, adjust_cursor_eq m _ hsize _ hcur]
    rfl
  refine ⟨_, e, rfl, ?_, ?_, ?_, ?_⟩ <;> dsimp only <;> omega

/-- C13, an instance: the last page of three is deleted with the cursor on the
last spread; the cursor comes down by one. -/
theorem delete_page_spec_witness :
    delete_page UINT_MOD 2
        ⟨[{ page_t.blank with title := bytes "a" }, { page_t.blank with title := bytes "b" },
          { page_t.blank with title := bytes "c" }], 1⟩
      = some ⟨[{ page_t.blank with title := bytes "a" }, { page_t.blank with title := bytes "b" }], 0⟩
      ∧ ∃ j2, delete_page UINT_MOD ((2 : Nat) : Int)
          ⟨[{ page_t.blank with title := bytes "a" }, { page_t.blank with title := bytes "b" },
            { page_t.blank with title := bytes "c" }], 1⟩ = some j2
        ∧ j2.current_page + 2 ≤ j2.pages.length :=
  ⟨by decide,
   (delete_page_spec UINT_MOD
      ⟨[{ page_t.blank with title := bytes "a" }, { page_t.blank with title := bytes "b" },
        { page_t.blank with title := bytes "c" }], 1⟩ 2 (by decide) (by decide) (by decide)).imp
     fun _ h => ⟨h.1, h.2.2.1⟩⟩

theorem adjust_of_two (m : Nat) (pages : List page_t) (cur : Nat) (h2 : 2 ≤ pages.length) :
    ∃ c, adjust m ⟨pages, cur⟩ = some ⟨pages, c⟩ ∧ (cur + 2 ≤ pages.length → c = cur) := by
  obtain ⟨c, hc⟩ := adjust_cursor_total m pages.length h2 cur
  refine ⟨c, ?_, fun h => ?_⟩
  · unfold adjust
    dsimp only
    rw [if_neg (by omega), hc]
    rfl
  · rw [adjust_cursor_keeps m _ _ h] at hc
    injection hc with hc
    exact hc.symm

theorem length_insert (pages : List page_t) (pos : Nat) (h : pos ≤ pages.length) :
    (pages.take pos ++ page_t.blank :: pages.drop pos).length = pages.length + 1 := by
  simp only [List.length_append, List.length_take, List.length_cons, List.length_drop]
  omega

/-- C14, as the code has it: at a valid index `pos`, "Insert before" gives
`pages[0..pos) ++ [blank] ++ pages[pos..]` and "Insert after" gives
`pages[0..pos] ++ [blank] ++ pages[pos+1..]`, one page more, for every document;
the cursor stays where it is when `current_page + 2 <= length + 1`, so whenever
the document satisfies the spread invariant.  At a selection that is no index of
a page (negative, or `length` and more) both buttons change nothing. -/
theorem insert_page_spec (m : Nat) (j : journal_t) :
    (∀ pos : Nat, pos < j.pages.length →
        ∃ c1 c2,
          insert_before m (pos : Int) j
              = some ⟨j.pages.take pos ++ page_t.blank :: j.pages.drop pos, c1⟩
            ∧ insert_after m (pos : Int) j
              = some ⟨j.pages.take (pos + 1) ++ page_t.blank :: j.pages.drop (pos + 1), c2⟩
            ∧ (j.pages.take pos ++ page_t.blank :: j.pages.drop pos).length
              = j.pages.length + 1
            ∧ (j.pages.take (pos + 1) ++ page_t.blank :: j.pages.drop (pos + 1)).length
              = j.pages.length + 1
            ∧ (j.current_page + 2 ≤ j.pages.length + 1 →
                c1 = j.current_page ∧ c2 = j.current_page))
      ∧ (∀ sel : Int, sel < 0 ∨ (j.pages.length : Int) ≤ sel →
          insert_before m sel j = some j ∧ insert_after m sel j = some j) := by
  refine ⟨fun pos hpos => ?_, fun sel hsel => ?_⟩
  · have hl1 := length_insert j.pages pos (by omega)
    have hl2 := length_insert j.pages (pos + 1) (by omega)
    obtain ⟨c1, h1, k1⟩ := adjust_of_two m _ j.current_page (by rw [hl1]; omega)
    obtain ⟨c2, h2, k2⟩ := adjust_of_two m _ j.current_page (by rw [hl2]; omega)
    refine ⟨c1, c2, ?_, ?_, hl1, hl2, fun h => ⟨k1 (by rw [hl1]; exact h), k2 (by rw [hl2]; exact h)⟩⟩
    · unfold insert_before
      rw [if_pos (selection_valid_of_lt j pos hpos)]
      exact h1
    · unfold insert_after
      rw [if_pos (selection_valid_of_lt j pos hpos)]
      exact h2
  · have hv : selection_valid sel j = false := by
      unfold selection_valid
      rcases hsel with h | h
      · simp [h]
      · simp [h]
    unfold insert_before insert_after
    rw [hv]
    exact ⟨rfl, rfl⟩

/-- C14, two instances: a page inserted before index 1 of a book of two pages
with the cursor on its spread, and a refused insertion with nothing selected. -/
theorem insert_page_spec_witness :
    insert_before UINT_MOD 1
        ⟨[{ page_t.blank with title := bytes "a" }, { page_t.blank with title := bytes "b" }], 0⟩
        = some ⟨[{ page_t.blank with title := bytes "a" }, page_t.blank,
                 { page_t.blank with title := bytes "b" }], 0⟩
      ∧ insert_after UINT_MOD (-1)
          ⟨[{ page_t.blank with title := bytes "a" }, { page_t.blank with title := bytes "b" }], 0⟩
        = some ⟨[{ page_t.blank with title := bytes "a" },
                 { page_t.blank with title := bytes "b" }], 0⟩ :=
  ⟨by decide,
   ((insert_page_spec UINT_MOD
      ⟨[{ page_t.blank with title := bytes "a" }, { page_t.blank with title := bytes "b" }], 0⟩).2
      (-1) (Or.inl (by decide))).2⟩

/-- C14 as stated fails: on a book of three pages whose cursor is at 5, "Insert
before" at index 0 brings the cursor down to 2. -/
theorem insert_moves_stray_cursor :
    insert_before UINT_MOD 0 ⟨[page_t.blank, page_t.blank, page_t.blank], 5⟩
      = some ⟨[page_t.blank, page_t.blank, page_t.blank, page_t.blank], 2⟩ := by
  decide

/-! ## The image cache: what a bind leaves of the binding -/

theorem release_image_frame (images : images_t) (img : image_t) :
    (release_image images img).2.uv = img.uv ∧ (release_image images img).2.xy = img.xy
      ∧ (release_image images img).2.tint = img.tint
      ∧ (release_image images img).2.background = img.background := by
  unfold release_image
  split
  · exact ⟨rfl, rfl, rfl, rfl⟩
  · split <;> exact ⟨rfl, rfl, rfl, rfl⟩

/-- C20, as the code has it: `obtain_image` writes the handle of the binding and
nothing else of it.  The rectangles `uv` and `xy`, the tint and the background
flag are what they were, on a first bind as on a switch of images, whatever the
call returns. -/
theorem obtain_image_frame (tex : Option Nat) (file : String) (images : images_t)
    (img : image_t) :
    (obtain_image tex file images img).img.uv = img.uv
      ∧ (obtain_image tex file images img).img.xy = img.xy
      ∧ (obtain_image tex file images img).img.tint = img.tint
      ∧ (obtain_image tex file images img).img.background = img.background := by
  unfold obtain_image
  split
  · split <;> exact ⟨rfl, rfl, rfl, rfl⟩
  · split
    · exact ⟨rfl, rfl, rfl, rfl⟩
    · exact release_image_frame images img

/-- C20 as stated fails: two bindings without image, with different `uv`
rectangles, are each bound for the first time, with success; each keeps its own
rectangle, so at most one of them is at the default. -/
theorem first_bind_keeps_rectangles :
    (obtain_image (some 7) "a.dds" []
        { ref := 0, uv := ⟨1, 0, 1, 1⟩, xy := ⟨0, 0, 1, 1⟩, tint := 255, background := true })
      = { ok := true, loads := 1, images := [(7, { refcount := 2, file := "a.dds" })],
          img := { ref := 7, uv := ⟨1, 0, 1, 1⟩, xy := ⟨0, 0, 1, 1⟩, tint := 255,
                   background := true } }
      ∧ (obtain_image (some 7) "a.dds" []
        { ref := 0, uv := ⟨0, 0, 1, 1⟩, xy := ⟨0, 1, 1, 1⟩, tint := 255, background := true })
      = { ok := true, loads := 1, images := [(7, { refcount := 2, file := "a.dds" })],
          img := { ref := 7, uv := ⟨0, 0, 1, 1⟩, xy := ⟨0, 1, 1, 1⟩, tint := 255,
                   background := true } } := by
  decide

/-! ## The word wrap: a break on the space after a full line -/

theorem c_str_of_no_nul (s : Text) (h : ∀ x ∈ s, x ≠ 0) : c_str s = s := by
  induction s with
  | nil => rfl
  | cons x rest ih =>
    unfold c_str
    rw [if_neg (h x (by simp)), ih (fun y hy => h y (List.mem_cons_of_mem _ hy))]

theorem length_copy_bytes (s : Text) (m : Nat) :
    ∀ (i : Nat) (out : Text), (copy_bytes s m i out).length = out.length := by
  induction m with
  | zero => intro i out; rfl
  | succ m ih =>
    intro i out
    unfold copy_bytes
    rw [ih, List.length_set]

theorem getD_copy_bytes (s : Text) (m : Nat) :
    ∀ (i : Nat) (out : Text) (j : Nat), (copy_bytes s m i out).getD j 0
      = if i ≤ j ∧ j < i + m ∧ j < out.length then s.getD j 0 else out.getD j 0 := by
  induction m with
  | zero =>
    intro i out j
    unfold copy_bytes
    rw [if_neg (by omega)]
  | succ m ih =>
    intro i out j
    unfold copy_bytes
    rw [ih, List.length_set, getD_set]
    by_cases h1 : i + 1 ≤ j ∧ j < i + 1 + m ∧ j < out.length
    · rw [if_pos h1, if_pos ⟨by omega, by omega, h1.2.2⟩]
    · rw [if_neg h1]
      by_cases h2 : i = j ∧ i < out.length
      · rw [if_pos h2, if_pos ⟨by omega, by omega, by omega⟩, h2.1]
      · rw [if_neg h2, if_neg (by omega)]

/-- The inner loop over `m` bytes without newline that fit into the width. -/
theorem copy_line_run (s : Text) (w left : Nat) (m : Nat) :
    ∀ (c i : Nat) (out : Text), (∀ j, i ≤ j → j < i + m → s.getD j 0 ≠ 10) → c + m ≤ w + 1 →
      copy_line s w (left + m) c i out
        = copy_line s w left (c + m) (i + m) (copy_bytes s m i out) := by
  induction m with
  | zero => intro c i out _ _; rfl
  | succ m ih =>
    intro c i out hnl hc
    have e : copy_line s w (left + (m + 1)) c i out
        = copy_line s w (left + m) (c + 1) (i + 1) (out.set i (s.getD i 0)) := by
      show copy_line s w (left + m + 1) c i out = _
      simp only [copy_line]
      rw [if_pos (by omega), if_neg (hnl i (Nat.le_refl i) (by omega))]
    rw [e, ih (c + 1) (i + 1) _ (fun j h1 h2 => hnl j (by omega) (by omega)) (by omega)]
    have e1 : c + 1 + m = c + (m + 1) := by omega
    have e2 : i + 1 + m = i + (m + 1) := by omega
    rw [e1, e2]
    rfl

theorem copy_line_full (s : Text) (w left c i : Nat) (out : Text) (h : w < c) :
    copy_line s w left c i out = .full i out := by
  cases left with
  | zero => simp only [copy_line]; rw [if_neg (by omega)]
  | succ left => simp only [copy_line]; rw [if_neg (by omega)]

theorem text_ext (l1 l2 : Text) (hlen : l1.length = l2.length)
    (h : ∀ j, j < l1.length → l1.getD j 0 = l2.getD j 0) : l1 = l2 := by
  apply List.ext_getElem hlen
  intro j h1 h2
  have := h j h1
  rw [List.getD_eq_getElem _ _ h1, List.getD_eq_getElem _ _ h2] at this
  exact this

theorem getD_append_cons (a b : Text) (x j : Nat) :
    (a ++ x :: b).getD j 0
      = if j < a.length then a.getD j 0 else if j = a.length then x
        else b.getD (j - a.length - 1) 0 := by
  by_cases h1 : j < a.length
  · rw [if_pos h1, List.getD_append _ _ _ _ h1]
  · rw [if_neg h1, List.getD_append_right _ _ _ _ (by omega)]
    by_cases h2 : j = a.length
    · rw [if_pos h2, h2, Nat.sub_self]
      rfl
    · rw [if_neg h2]
      obtain ⟨k, hk⟩ : ∃ k, j - a.length = k + 1 := ⟨j - a.length - 1, by omega⟩
      rw [hk, List.getD_cons_succ, Nat.add_sub_cancel]

/-- A round of the outer loop that ends on a whitespace byte. -/
theorem wrap_loop_break (s : Text) (n w fuel i i1 : Nat) (out out1 : Text) (hi : i < n)
    (hc : copy_line s w (n - i) 1 i out = .full i1 out1)
    (hs : isspace (s.getD i1 0) = true) :
    wrap_loop s n w (fuel + 1) i out = wrap_loop s n w fuel (i1 + 1) (out1.set i1 10) := by
  simp only [wrap_loop]
  rw [if_pos hi, hc]
  simp only [hs, if_true]

/-- A round of the outer loop in which the inner loop reaches the end. -/
theorem wrap_loop_return (s : Text) (n w fuel i : Nat) (out out1 : Text) (hi : i < n)
    (hc : copy_line s w (n - i) 1 i out = .returned out1) :
    wrap_loop s n w (fuel + 1) i out = some out1 := by
  simp only [wrap_loop]
  rw [if_pos hi, hc]

/-- The exit of the outer loop. -/
theorem wrap_loop_done (s : Text) (n w fuel i : Nat) (out : Text) (hi : ¬ i < n) :
    wrap_loop s n w (fuel + 1) i out = some out := by
  simp only [wrap_loop]
  rw [if_neg hi]

theorem getD_ne_newline (l : Text) (j : Nat) (hj : j < l.length)
    (h : ∀ x ∈ l, isspace x = false ∧ x ≠ 0) : l.getD j 0 ≠ 10 := by
  rw [List.getD_eq_getElem _ _ hj]
  intro e
  have := (h _ (List.getElem_mem hj)).1
  rw [e] at this
  exact absurd this (by decide)

/-- C11, as the code has it: for `a` of exactly `w` bytes and `b` of fewer than
`w` bytes, none of them whitespace or NUL, `greedy_word_wrap` returns (after two
rounds of its outer loop) `a ++ "\n" ++ b` for `a ++ " " ++ b`: the space right
after the `w` columns is the byte that becomes the newline. -/
theorem greedy_word_wrap_break_at_space (w : Nat) (a b : Text) (fuel : Nat)
    (ha : a.length = w) (hb : b.length < w)
    (hna : ∀ x ∈ a, isspace x = false ∧ x ≠ 0) (hnb : ∀ x ∈ b, isspace x = false ∧ x ≠ 0) :
    greedy_word_wrap (fuel + 2) (a ++ 32 :: b) w = some (a ++ 10 :: b) := by
  have hnul : ∀ x ∈ a ++ 32 :: b, x ≠ 0 := by
    intro x hx
    rw [List.mem_append, List.mem_cons] at hx
    rcases hx with h | h | h
    · exact (hna x h).2
    · rw [h]; decide
    · exact (hnb x h).2
  have hn : strlen (a ++ 32 :: b) = b.length + 1 + w := by
    unfold strlen
    rw [c_str_of_no_nul _ hnul, List.length_append, List.length_cons]
    omega
  have hsa : ∀ j, 0 ≤ j → j < 0 + w → (a ++ 32 :: b).getD j 0 ≠ 10 := by
    intro j _ hj
    rw [getD_append_cons, if_pos (by omega)]
    exact getD_ne_newline a j (by omega) hna
  have hsw : (a ++ 32 :: b).getD w 0 = 32 := by
    rw [getD_append_cons, if_neg (by omega), if_pos ha.symm]
  have hsb : ∀ j, w + 1 ≤ j → j < w + 1 + b.length → (a ++ 32 :: b).getD j 0 ≠ 10 := by
    intro j h1 h2
    rw [getD_append_cons, if_neg (by omega), if_neg (by omega)]
    exact getD_ne_newline b _ (by omega) hnb
  have r1 : copy_line (a ++ 32 :: b) w (b.length + 1 + w - 0) 1 0
        (List.replicate (b.length + 1 + w) 0)
      = .full w (copy_bytes (a ++ 32 :: b) w 0 (List.replicate (b.length + 1 + w) 0)) := by
    rw [Nat.sub_zero, copy_line_run _ w (b.length + 1) w 1 0 _ hsa (by omega),
      copy_line_full _ _ _ _ _ _ (by omega), Nat.zero_add]
  have key : greedy_word_wrap (fuel + 2) (a ++ 32 :: b) w
      = some (copy_bytes (a ++ 32 :: b) b.length (w + 1)
          ((copy_bytes (a ++ 32 :: b) w 0 (List.replicate (b.length + 1 + w) 0)).set w 10)) := by
    unfold greedy_word_wrap
    rw [hn, wrap_loop_break _ _ _ _ _ _ _ _ (by omega) r1 (by rw [hsw]; decide)]
    by_cases hbe : b.length = 0
    · rw [wrap_loop_done _ _ _ _ _ _ (by omega), hbe]
      rfl
    · have r2 : copy_line (a ++ 32 :: b) w (b.length + 1 + w - (w + 1)) 1 (w + 1)
            ((copy_bytes (a ++ 32 :: b) w 0 (List.replicate (b.length + 1 + w) 0)).set w 10)
          = .returned (copy_bytes (a ++ 32 :: b) b.length (w + 1)
              ((copy_bytes (a ++ 32 :: b) w 0
                (List.replicate (b.length + 1 + w) 0)).set w 10)) := by
        have e : b.length + 1 + w - (w + 1) = 0 + b.length := by omega
        rw [e, copy_line_run _ w 0 b.length 1 (w + 1) _ hsb (by omega)]
        simp only [copy_line]
        rw [if_pos (by omega)]
      rw [wrap_loop_return _ _ _ _ _ _ _ (by omega) r2]
  rw [key]
  congr 1
  apply text_ext
  · rw [length_copy_bytes, List.length_set, length_copy_bytes, List.length_replicate,
      List.length_append, List.length_cons]
    omega
  · intro j hj
    rw [length_copy_bytes, List.length_set, length_copy_bytes, List.length_replicate] at hj
    rw [getD_copy_bytes, List.length_set, length_copy_bytes, List.length_replicate, getD_set,
      length_copy_bytes, List.length_replicate, getD_copy_bytes, List.length_replicate]
    rw [getD_append_cons a b 10 j]
    by_cases h1 : j < w
    · rw [if_neg (by omega), if_neg (by omega), if_pos ⟨by omega, by omega, by omega⟩,
        if_pos (by omega), getD_append_cons, if_pos (by omega)]
    · by_cases h2 : j = w
      · rw [if_neg (by omega), if_pos ⟨by omega, by omega⟩, if_neg (by omega),
          if_pos (by omega)]
      · rw [if_pos ⟨by omega, by omega, by omega⟩, if_neg (by omega), if_neg (by omega),
          getD_append_cons, if_neg (by omega), if_neg (by omega)]

/-- C11, the example of the specification: `"aaaaaaaaaa bbb"` at width 10. -/
theorem greedy_word_wrap_break_at_space_witness :
    greedy_word_wrap 2 (bytes "aaaaaaaaaa" ++ 32 :: bytes "bbb") 10
      = some (bytes "aaaaaaaaaa" ++ 10 :: bytes "bbb") :=
  greedy_word_wrap_break_at_space 10 (bytes "aaaaaaaaaa") (bytes "bbb") 0 (by decide)
    (by decide) (by decide) (by decide)

/-- C11 as stated fails: the NUL byte is no whitespace, and for `a` the single
byte NUL, `b` empty and width 1 the source `a ++ " " ++ b` is returned as the
empty text, not as `a ++ "\n" ++ b`. -/
theorem greedy_word_wrap_nul_word :
    isspace 0 = false
      ∧ greedy_word_wrap 2 ([0] ++ 32 :: []) 1 = some []
      ∧ ∀ fuel, greedy_word_wrap fuel ([0] ++ 32 :: []) 1 ≠ some ([0] ++ 10 :: []) := by
  refine ⟨by decide, by decide, fun fuel => ?_⟩
  cases fuel with
  | zero => exact fun h => by cases h
  | succ fuel =>
    have e : greedy_word_wrap (fuel + 1) ([0] ++ 32 :: []) 1 = some [] := by
      simp [greedy_word_wrap, strlen, c_str, wrap_loop]
    rw [e]
    decide

/-! ## The word wrap: lines longer than the width -/

theorem getD_strlen (s : Text) : s.getD (strlen s) 0 = 0 := by
  induction s with
  | nil => rfl
  | cons x rest ih =>
    unfold strlen c_str
    by_cases hx : x = 0
    · rw [if_pos hx, hx]; rfl
    · rw [if_neg hx]
      exact ih

theorem scan_back_none (s : Text) (i : Nat) (h : scan_back s i = none) :
    ∀ k, 1 ≤ k → k ≤ i → isspace (s.getD k 0) = false := by
  induction i with
  | zero => intro k h1 h2; omega
  | succ i ih =>
    unfold scan_back at h
    by_cases hs : isspace (s.getD (i + 1) 0) = true
    · rw [if_pos hs] at h; cases h
    · rw [if_neg hs] at h
      intro k h1 h2
      by_cases hk : k = i + 1
      · rw [hk]; simpa using hs
      · exact ih h k h1 (by omega)

/-- A newline written at `p` closes the lines below `p + 1`. -/
theorem lines_within_break (w : Nat) (o : Text) (p q : Nat) (h : lines_within w o q)
    (hpq : p ≤ q) (hp : p < o.length) : lines_within w (o.set p 10) (p + 1) := by
  intro a ha
  by_cases hlt : a + w < p
  · obtain ⟨j, h1, h2, h3⟩ := h a (by omega)
    refine ⟨j, h1, h2, ?_⟩
    rw [getD_set, if_neg (by omega)]
    exact h3
  · refine ⟨p, by omega, by omega, ?_⟩
    rw [getD_set, if_pos ⟨rfl, hp⟩]

/-- The inner loop keeps the lines below the position within the width, as long
as the column counter `c` is above the number of bytes since the last newline. -/
theorem copy_line_lines (s : Text) (w n : Nat) (left : Nat) :
    ∀ (c i : Nat) (out : Text), i + left = n → out.length = n → 1 ≤ c →
      lines_within w out i →
      (i + 1 ≤ c ∨ ∃ j, j < i ∧ i ≤ j + c ∧ out.getD j 0 = 10) →
      (∀ o, copy_line s w left c i out = .returned o → lines_within w o n)
      ∧ (∀ i1 o, copy_line s w left c i out = .full i1 o →
          lines_within w o i1 ∧ i + w + 1 ≤ i1 + c ∧ o.length = n ∧ i1 ≤ n) := by
  induction left with
  | zero =>
    intro c i out hi hl hc hlin hcol
    by_cases hcw : c ≤ w
    · have e : copy_line s w 0 c i out = .returned out := by simp [copy_line, hcw]
      rw [e]
      refine ⟨fun o h => ?_, fun i1 o h => (by cases h)⟩
      injection h with h
      subst h
      have : i = n := by omega
      rw [← this]
      exact hlin
    · have e : copy_line s w 0 c i out = .full i out := by simp [copy_line, hcw]
      rw [e]
      refine ⟨fun o h => (by cases h), fun i1 o h => ?_⟩
      injection h with h1 h2
      subst h1 h2
      exact ⟨hlin, by omega, hl, by omega⟩
  | succ left ih =>
    intro c i out hi hl hc hlin hcol
    by_cases hcw : c ≤ w
    · have e : copy_line s w (left + 1) c i out
          = copy_line s w left ((if s.getD i 0 = 10 then 1 else c) + 1) (i + 1)
              (out.set i (s.getD i 0)) := by
        simp [copy_line, hcw]
      rw [e]
      have hc1 : (if s.getD i 0 = 10 then 1 else c) ≤ c := by
        by_cases hnl : s.getD i 0 = 10
        · rw [if_pos hnl]; exact hc
        · rw [if_neg hnl]
      have hlin1 : lines_within w (out.set i (s.getD i 0)) (i + 1) := by
        intro a ha
        by_cases hlt : a + w < i
        · obtain ⟨j, h1, h2, h3⟩ := hlin a hlt
          refine ⟨j, h1, h2, ?_⟩
          rw [getD_set, if_neg (by omega)]
          exact h3
        · rcases hcol with hcol | ⟨j, h1, h2, h3⟩
          · omega
          · refine ⟨j, by omega, by omega, ?_⟩
            rw [getD_set, if_neg (by omega)]
            exact h3
      have hcol1 : i + 1 + 1 ≤ (if s.getD i 0 = 10 then 1 else c) + 1
          ∨ ∃ j, j < i + 1 ∧ i + 1 ≤ j + ((if s.getD i 0 = 10 then 1 else c) + 1)
            ∧ (out.set i (s.getD i 0)).getD j 0 = 10 := by
        by_cases hnl : s.getD i 0 = 10
        · refine Or.inr ⟨i, by omega, by omega, ?_⟩
          rw [getD_set, if_pos ⟨rfl, by omega⟩]
          exact hnl
        · rw [if_neg hnl]
          rcases hcol with hcol | ⟨j, h1, h2, h3⟩
          · exact Or.inl (by omega)
          · refine Or.inr ⟨j, by omega, by omega, ?_⟩
            rw [getD_set, if_neg (by omega)]
            exact h3
      obtain ⟨k1, k2⟩ := ih _ (i + 1) _ (by omega) (by simp [hl]) (by omega) hlin1 hcol1
      refine ⟨k1, fun i1 o h => ?_⟩
      obtain ⟨g1, g2, g3, g4⟩ := k2 i1 o h
      exact ⟨g1, by omega, g3, g4⟩
    · have e : copy_line s w (left + 1) c i out = .full i out := by simp [copy_line, hcw]
      rw [e]
      refine ⟨fun o h => (by cases h), fun i1 o h => ?_⟩
      injection h with h1 h2
      subst h1 h2
      exact ⟨hlin, by omega, hl, by omega⟩

/-- The outer loop, for a text with a whitespace byte at an index `1 .. w`: every
round starts behind a newline and leaves the lines below it within the width. -/
theorem wrap_loop_lines (s : Text) (w k : Nat) (hk1 : 1 ≤ k) (hkw : k ≤ w)
    (hks : isspace (s.getD k 0) = true) (fuel : Nat) :
    ∀ (i : Nat) (out res : Text), out.length = strlen s → lines_within w out i →
      (i = 0 ∨ ∃ j, j + 1 = i ∧ out.getD j 0 = 10) →
      wrap_loop s (strlen s) w fuel i out = some res → lines_within w res (strlen s) := by
  have hend : ∀ p, p ≤ strlen s → isspace (s.getD p 0) = true → p < strlen s := by
    intro p hp hsp
    by_contra hge
    have : p = strlen s := by omega
    rw [this, getD_strlen] at hsp
    exact absurd hsp (by decide)
  induction fuel with
  | zero => intro i out res _ _ _ h; simp [wrap_loop] at h
  | succ fuel ih =>
    intro i out res hl hlin hstart h
    unfold wrap_loop at h
    split at h
    · rename_i hin
      have hcol : i + 1 ≤ 1 ∨ ∃ j, j < i ∧ i ≤ j + 1 ∧ out.getD j 0 = 10 := by
        rcases hstart with h0 | ⟨j, h1, h2⟩
        · exact Or.inl (by omega)
        · exact Or.inr ⟨j, by omega, by omega, h2⟩
      have hc := copy_line_lines s w (strlen s) (strlen s - i) 1 i out (by omega) hl
        (Nat.le_refl 1) hlin hcol
      split at h
      · rename_i o heq
        injection h with h
        subst h
        exact hc.1 _ heq
      · rename_i i1 o heq
        obtain ⟨hlin1, hge, hol, hi1⟩ := hc.2 _ _ heq
        split at h
        · rename_i hsp
          have hlt := hend i1 hi1 hsp
          refine ih (i1 + 1) _ res (by simp [hol])
            (lines_within_break w o i1 i1 hlin1 (Nat.le_refl _) (by omega))
            (Or.inr ⟨i1, rfl, ?_⟩) h
          rw [getD_set, if_pos ⟨rfl, by omega⟩]
        · split at h
          · rename_i k2 hk2
            obtain ⟨hki, hk2s⟩ := scan_back_some s i1 k2 hk2
            have hlt := hend k2 (by omega) hk2s
            refine ih (k2 + 1) _ res (by simp [hol])
              (lines_within_break w o k2 i1 hlin1 hki (by omega))
              (Or.inr ⟨k2, rfl, ?_⟩) h
            rw [getD_set, if_pos ⟨rfl, by omega⟩]
          · rename_i hnone
            have := scan_back_none s i1 hnone k hk1 (by omega)
            rw [hks] at this
            cases this
    · rename_i hin
      injection h with h
      subst h
      intro a ha
      exact hlin a (by omega)

/-- C12, as the code has it: when the text has a whitespace byte at an index from
`1` to `w`, no line of a text returned by `greedy_word_wrap` is longer than `w`
bytes (any `w + 1` bytes in a row hold a newline).  A line longer than `w`
therefore comes only with a text that starts, behind its first byte, with `w`
bytes without whitespace. -/
theorem greedy_word_wrap_lines (fuel : Nat) (s : Text) (w : Nat) (out : Text)
    (h : greedy_word_wrap fuel s w = some out) (k : Nat) (hk1 : 1 ≤ k) (hkw : k ≤ w)
    (hks : isspace (s.getD k 0) = true) :
    ∀ a, a + w < out.length → ∃ j, a ≤ j ∧ j ≤ a + w ∧ out.getD j 0 = 10 := by
  have hlen : out.length = strlen s :=
    (wrap_loop_keeps s w (strlen s) fuel 0 (List.replicate (strlen s) 0) out (by simp)
      (fun j hj => absurd hj (Nat.not_lt_zero j)) h).1
  have key := wrap_loop_lines s w k hk1 hkw hks fuel 0 (List.replicate (strlen s) 0) out
    (by simp) (fun a ha => absurd ha (Nat.not_lt_zero _)) (Or.inl rfl) h
  rw [hlen]
  exact key

/-- C12, an instance: `"ab cd efgh"` at width 5 has a space at index 2 and is
returned in lines `ab cd` and `efgh`. -/
theorem greedy_word_wrap_lines_witness :
    greedy_word_wrap 3 (bytes "ab cd efgh") 5 = some (bytes "ab cd\nefgh")
      ∧ ∀ a, a + 5 < (bytes "ab cd\nefgh").length →
          ∃ j, a ≤ j ∧ j ≤ a + 5 ∧ (bytes "ab cd\nefgh").getD j 0 = 10 :=
  ⟨by decide,
   greedy_word_wrap_lines 3 (bytes "ab cd efgh") 5 (bytes "ab cd\nefgh") (by decide) 2
     (by decide) (by decide) (by decide)⟩

/-- C12 as stated fails: `"aaaaaaa b"` at width 5 is returned unchanged, one line
of nine bytes with a space at index 7. -/
theorem greedy_word_wrap_long_line_with_space :
    greedy_word_wrap 3 (bytes "aaaaaaa b") 5 = some (bytes "aaaaaaa b")
      ∧ ¬ long_lines_unbroken 5 (bytes "aaaaaaa b") := by
  refine ⟨by decide, fun h => ?_⟩
  have := h 0 8 (by decide) (by decide) (by decide)
    (fun j _ hj => by
      have : j = 0 ∨ j = 1 ∨ j = 2 ∨ j = 3 ∨ j = 4 ∨ j = 5 ∨ j = 6 ∨ j = 7 ∨ j = 8 := by omega
      rcases this with e | e | e | e | e | e | e | e | e <;> subst e <;> decide)
    7 (by decide) (by decide)
  exact absurd this (by decide)

/-! ## The test for visible symbols -/

/-- What `visible_symbols` computes: some byte of the C string is neither a space
nor a control character. -/
theorem visible_symbols_exists (s : Text) :
    visible_symbols s = true ↔ ∃ b ∈ c_str s, b ≠ 32 ∧ iscntrl b = false := by
  induction s with
  | nil => simp [visible_symbols, c_str]
  | cons x rest ih =>
    unfold visible_symbols c_str
    by_cases hx : x = 0
    · rw [if_pos hx, if_pos hx]
      simp
    · rw [if_neg hx, if_neg hx]
      by_cases hv : (x != 32 && !iscntrl x) = true
      · rw [if_pos hv]
        simp only [Bool.and_eq_true, bne_iff_ne, ne_eq, Bool.not_eq_true'] at hv
        simp only [true_iff]
        exact ⟨x, List.mem_cons_self _ _, hv.1, hv.2⟩
      · rw [if_neg hv, ih]
        simp only [Bool.and_eq_true, bne_iff_ne, ne_eq, Bool.not_eq_true', not_and,
          Bool.not_eq_false] at hv
        constructor
        · rintro ⟨b, hb, h1, h2⟩
          exact ⟨b, List.mem_cons_of_mem _ hb, h1, h2⟩
        · rintro ⟨b, hb, h1, h2⟩
          rw [List.mem_cons] at hb
          rcases hb with hb | hb
          · subst hb
            rw [hv h1] at h2
            cases h2
          · exact ⟨b, hb, h1, h2⟩

/-- C23: `visible_symbols` answers true exactly when the text, read up to its
first NUL byte, holds a byte that is neither a space (`0x20`) nor an ASCII
control character (`0x00 .. 0x1F`, `0x7F`).  So a text of spaces, tabs and
newlines only, the empty text among them, has nothing visible, and a text that
holds a byte of `0x80` or more before its first NUL has. -/
theorem visible_symbols_spec (s : Text) :
    (visible_symbols s = true ↔ ∃ b ∈ c_str s, b ≠ 32 ∧ ¬ (b < 32 ∨ b = 127))
      ∧ ((∀ b ∈ c_str s, b = 32 ∨ b = 9 ∨ b = 10) → visible_symbols s = false)
      ∧ ((∃ b ∈ c_str s, 128 ≤ b) → visible_symbols s = true) := by
  have hc : ∀ b : Nat, iscntrl b = false ↔ ¬ (b < 32 ∨ b = 127) := by
    intro b
    unfold iscntrl
    simp only [Bool.or_eq_false_iff, decide_eq_false_iff_not, beq_eq_false_iff_ne, ne_eq,
      not_or]
  refine ⟨?_, fun h => ?_, fun h => ?_⟩
  · rw [visible_symbols_exists]
    constructor
    · rintro ⟨b, hb, h1, h2⟩
      exact ⟨b, hb, h1, (hc b).1 h2⟩
    · rintro ⟨b, hb, h1, h2⟩
      exact ⟨b, hb, h1, (hc b).2 h2⟩
  · cases hv : visible_symbols s with
    | false => rfl
    | true =>
      obtain ⟨b, hb, h1, h2⟩ := (visible_symbols_exists s).1 hv
      have h3 := (hc b).1 h2
      rcases h b hb with e | e | e <;> omega
  · obtain ⟨b, hb, h1⟩ := h
    exact (visible_symbols_exists s).2 ⟨b, hb, by omega, (hc b).2 (by omega)⟩

/-- C23, instances: the empty text and a text of spaces, a tab and a newline have
nothing visible; the two bytes of an accented letter in UTF-8 are visible; the
byte `0x7F` alone is not. -/
theorem visible_symbols_spec_witness :
    visible_symbols [] = false
      ∧ visible_symbols (bytes "  \t\n") = false
      ∧ visible_symbols [195, 169] = true
      ∧ visible_symbols [127] = false :=
  ⟨(visible_symbols_spec []).2.1 (fun b hb => by cases hb),
   (visible_symbols_spec (bytes "  \t\n")).2.1 (by decide),
   (visible_symbols_spec [195, 169]).2.2 ⟨195, by decide, by decide⟩,
   by decide⟩

/-! ## The word wrap: a text without whitespace -/

theorem getD_no_space (s : Text) (h : ∀ x ∈ s, isspace x = false) (j : Nat) :
    isspace (s.getD j 0) = false := by
  by_cases hj : j < s.length
  · rw [List.getD_eq_getElem _ _ hj]
    exact h _ (List.getElem_mem hj)
  · rw [List.getD_eq_default _ _ (by omega)]
    rfl

theorem scan_back_no_space (s : Text) (h : ∀ j, isspace (s.getD j 0) = false) (i : Nat) :
    scan_back s i = none := by
  induction i with
  | zero => rfl
  | succ i ih =>
    unfold scan_back
    rw [if_neg (by rw [h]; decide), ih]

/-- The inner loop ends with the width used up only after the columns that were
left, one byte for each at least. -/
theorem copy_line_advance (s : Text) (w : Nat) (left : Nat) :
    ∀ (c i : Nat) (out : Text) (i1 : Nat) (o : Text), 1 ≤ c →
      copy_line s w left c i out = .full i1 o → i + w + 1 ≤ i1 + c := by
  induction left with
  | zero =>
    intro c i out i1 o _ h
    by_cases hc : c ≤ w
    · simp [copy_line, hc] at h
    · simp only [copy_line, if_neg hc] at h
      injection h with h1 h2
      omega
  | succ left ih =>
    intro c i out i1 o hc1 h
    by_cases hc : c ≤ w
    · simp only [copy_line, if_pos hc] at h
      have := ih _ _ _ _ _ (Nat.succ_le_succ (Nat.zero_le _)) h
      by_cases hnl : s.getD i 0 = 10
      · rw [if_pos hnl] at this; omega
      · rw [if_neg hnl] at this; omega
    · simp only [copy_line, if_neg hc] at h
      injection h with h1 h2
      omega

/-- On a text without whitespace the outer loop returns: every round that does
not return moves the position on by the width. -/
theorem wrap_loop_returns (s : Text) (n w : Nat) (hw : 1 ≤ w)
    (hs : ∀ j, isspace (s.getD j 0) = false) (fuel : Nat) :
    ∀ (i : Nat) (out : Text), n - i < fuel → ∃ res, wrap_loop s n w fuel i out = some res := by
  induction fuel with
  | zero => intro i out h; omega
  | succ fuel ih =>
    intro i out hf
    by_cases hin : i < n
    · cases hc : copy_line s w (n - i) 1 i out with
      | returned o => exact ⟨o, wrap_loop_return s n w fuel i out o hin hc⟩
      | full i1 o =>
        have hadv := copy_line_advance s w (n - i) 1 i out i1 o (Nat.le_refl 1) hc
        obtain ⟨res, hres⟩ := ih i1 o (by omega)
        refine ⟨res, ?_⟩
        simp only [wrap_loop]
        rw [if_pos hin, hc]
        simp only [hs i1, Bool.false_eq_true, if_false, scan_back_no_space s hs i1]
        exact hres
    · exact ⟨out, wrap_loop_done s n w fuel i out hin⟩

theorem getD_c_str (s : Text) : ∀ j, j < strlen s → (c_str s).getD j 0 = s.getD j 0 := by
  induction s with
  | nil => intro j hj; simp [strlen, c_str] at hj
  | cons x rest ih =>
    intro j hj
    unfold strlen c_str at hj
    unfold c_str
    by_cases hx : x = 0
    · rw [if_pos hx] at hj
      simp at hj
    · rw [if_neg hx] at hj
      rw [if_neg hx]
      cases j with
      | zero => rfl
      | succ j =>
        rw [List.getD_cons_succ, List.getD_cons_succ]
        exact ih j (by simpa [strlen] using hj)

/-- C22, as the code has it: for a width of one or more and a source without
whitespace byte, `greedy_word_wrap` returns (within `strlen + 1` rounds of its
outer loop) the C string of the source, however long it is: the source itself
when it holds no NUL byte. -/
theorem greedy_word_wrap_no_space (s : Text) (w fuel : Nat) (hw : 1 ≤ w)
    (hs : ∀ x ∈ s, isspace x = false) (hf : strlen s < fuel) :
    greedy_word_wrap fuel s w = some (c_str s)
      ∧ ((∀ x ∈ s, x ≠ 0) → greedy_word_wrap fuel s w = some s) := by
  have hsp := getD_no_space s hs
  obtain ⟨res, hres⟩ := wrap_loop_returns s (strlen s) w hw hsp fuel 0
    (List.replicate (strlen s) 0) (by omega)
  have key := wrap_loop_keeps s w (strlen s) fuel 0 (List.replicate (strlen s) 0) res
    (by simp) (fun j hj => absurd hj (Nat.not_lt_zero j)) hres
  have e : res = c_str s := by
    apply text_ext
    · exact key.1
    · intro j hj
      rw [key.1] at hj
      rw [getD_c_str s j hj]
      rcases key.2 j hj with h | ⟨_, h⟩
      · exact h
      · rw [hsp j] at h; cases h
  have main : greedy_word_wrap fuel s w = some (c_str s) := by
    unfold greedy_word_wrap
    rw [hres, e]
  exact ⟨main, fun h0 => by rw [main, c_str_of_no_nul s h0]⟩

/-- C22, an instance: a word of eleven letters at width 4. -/
theorem greedy_word_wrap_no_space_witness :
    greedy_word_wrap 12 (bytes "unbreakable") 4 = some (bytes "unbreakable") :=
  (greedy_word_wrap_no_space (bytes "unbreakable") 4 12 (by decide) (by decide)
    (by decide)).2 (by decide)

/-- C22 as stated fails: the source `"ab\0c"` holds no whitespace byte, and the
text returned for it is `"ab"`, not the source. -/
theorem greedy_word_wrap_no_space_nul :
    (∀ x ∈ ([97, 98, 0, 99] : Text), isspace x = false)
      ∧ greedy_word_wrap 3 [97, 98, 0, 99] 1 = some [97, 98]
      ∧ ∀ fuel, greedy_word_wrap fuel [97, 98, 0, 99] 1 ≠ some [97, 98, 0, 99] := by
  refine ⟨by decide, by decide, fun fuel h => ?_⟩
  have := (wrap_loop_keeps [97, 98, 0, 99] 1 (strlen [97, 98, 0, 99]) fuel 0
    (List.replicate (strlen [97, 98, 0, 99]) 0) [97, 98, 0, 99] (by simp)
    (fun j hj => absurd hj (Nat.not_lt_zero j)) h).1
  revert this
  decide

/-! ## The word wrap: the end of the text -/

/-- The inner loop behind the last newline.  From `p` on the source has no
newline, the column counter is at most `d` there, and the bytes from `p` to the
end fit the width with `d` to spare: the loop then reaches the end of the text
and has copied these bytes, or it stops before `p`. -/
theorem copy_line_tail (s : Text) (w n p d : Nat)
    (hnl : ∀ j, p ≤ j → j < n → s.getD j 0 ≠ 10) (hd : n + d ≤ w + p)
    (hpd : p = 0 ∨ (s.getD (p - 1) 0 = 10 ∧ 2 ≤ d)) (left : Nat) :
    ∀ (c i : Nat) (out : Text), i + left = n → out.length = n →
      (p ≤ i → c + p ≤ i + d) →
      (∀ j, p ≤ j → j < i → out.getD j 0 = s.getD j 0) →
      (∀ o, copy_line s w left c i out = .returned o →
        ∀ j, p ≤ j → j < n → o.getD j 0 = s.getD j 0)
      ∧ (∀ i1 o, copy_line s w left c i out = .full i1 o → i1 < p ∧ o.length = n) := by
  induction left with
  | zero =>
    intro c i out hi hl hA hB
    by_cases hc : c ≤ w
    · have e : copy_line s w 0 c i out = .returned out := by simp [copy_line, hc]
      rw [e]
      refine ⟨fun o h => ?_, fun i1 o h => (by cases h)⟩
      injection h with h
      subst h
      intro j h1 h2
      exact hB j h1 (by omega)
    · have e : copy_line s w 0 c i out = .full i out := by simp [copy_line, hc]
      rw [e]
      refine ⟨fun o h => (by cases h), fun i1 o h => ?_⟩
      injection h with h1 h2
      subst h1 h2
      refine ⟨?_, hl⟩
      by_contra hge
      have := hA (by omega)
      omega
  | succ left ih =>
    intro c i out hi hl hA hB
    by_cases hc : c ≤ w
    · have e : copy_line s w (left + 1) c i out
          = copy_line s w left ((if s.getD i 0 = 10 then 1 else c) + 1) (i + 1)
              (out.set i (s.getD i 0)) := by
        simp [copy_line, hc]
      rw [e]
      refine ih _ (i + 1) _ (by omega) (by simp [hl]) ?_ ?_
      · intro hpi
        by_cases hle : p ≤ i
        · rw [if_neg (hnl i hle (by omega))]
          have := hA hle
          omega
        · have hp1 : p - 1 = i := by omega
          rcases hpd with h0 | ⟨h10, h2⟩
          · omega
          · rw [hp1] at h10
            rw [if_pos h10]
            omega
      · intro j h1 h2
        rw [getD_set]
        by_cases hij : i = j
        · rw [if_pos ⟨hij, by omega⟩, hij]
        · rw [if_neg (fun hh => hij hh.1)]
          exact hB j h1 (by omega)
    · have e : copy_line s w (left + 1) c i out = .full i out := by simp [copy_line, hc]
      rw [e]
      refine ⟨fun o h => (by cases h), fun i1 o h => ?_⟩
      injection h with h1 h2
      subst h1 h2
      refine ⟨?_, hl⟩
      by_contra hge
      have := hA (by omega)
      omega

/-- The outer loop behind the last newline: no round starts behind `p`, so no
byte from `p` on is ever turned into a newline. -/
theorem wrap_loop_tail (s : Text) (w n p d : Nat) (hd1 : 1 ≤ d)
    (hnl : ∀ j, p ≤ j → j < n → s.getD j 0 ≠ 10) (hd : n + d ≤ w + p)
    (hpd : p = 0 ∨ (s.getD (p - 1) 0 = 10 ∧ 2 ≤ d)) (fuel : Nat) :
    ∀ (i : Nat) (out res : Text), out.length = n → i ≤ p →
      wrap_loop s n w fuel i out = some res →
      ∀ j, p ≤ j → j < n → res.getD j 0 = s.getD j 0 := by
  induction fuel with
  | zero => intro i out res _ _ h; simp [wrap_loop] at h
  | succ fuel ih =>
    intro i out res hl hip h
    unfold wrap_loop at h
    split at h
    · rename_i hin
      have hc := copy_line_tail s w n p d hnl hd hpd (n - i) 1 i out (by omega) hl
        (fun _ => by omega) (fun j h1 h2 => by omega)
      split at h
      · rename_i o heq
        injection h with h
        subst h
        exact hc.1 _ heq
      · rename_i i1 o heq
        obtain ⟨hi1, hol⟩ := hc.2 _ _ heq
        split at h
        · exact ih (i1 + 1) _ res (by simp [hol]) (by omega) h
        · split at h
          · rename_i k hk
            have hki := (scan_back_some s i1 k hk).1
            exact ih (k + 1) _ res (by simp [hol]) (by omega) h
          · exact ih i1 o res hol (by omega) h
    · intro j h1 h2
      omega

/-- C21, as the code has it: in a text returned by `greedy_word_wrap` the bytes
of the C string from `p` to its end are those of the source, when `p` is the
start of the last line (index `0` of a text without newline, or the index behind
the last newline) and this last line is shorter than the width (text without
newline) or at least two bytes shorter than the width (behind a newline). -/
theorem greedy_word_wrap_tail (fuel : Nat) (s : Text) (w : Nat) (out : Text)
    (h : greedy_word_wrap fuel s w = some out) (p : Nat)
    (hnl : ∀ j, p ≤ j → j < strlen s → s.getD j 0 ≠ 10)
    (hlast : (p = 0 ∧ strlen s + 1 ≤ w)
      ∨ (1 ≤ p ∧ s.getD (p - 1) 0 = 10 ∧ strlen s + 2 ≤ w + p)) :
    ∀ j, p ≤ j → j < strlen s → out.getD j 0 = s.getD j 0 := by
  rcases hlast with ⟨h0, hw⟩ | ⟨h1, h10, hw⟩
  · exact wrap_loop_tail s w (strlen s) p 1 (Nat.le_refl 1) hnl (by omega) (Or.inl h0) fuel 0
      (List.replicate (strlen s) 0) out (by simp) (Nat.zero_le p) h
  · exact wrap_loop_tail s w (strlen s) p 2 (by omega) hnl (by omega)
      (Or.inr ⟨h10, Nat.le_refl 2⟩) fuel 0 (List.replicate (strlen s) 0) out (by simp)
      (Nat.zero_le p) h

/-- C21, an instance: `"x\nab cd"` at width 7; the last line `ab cd` begins at
index 2 and has five bytes, and the text is returned as it is. -/
theorem greedy_word_wrap_tail_witness :
    greedy_word_wrap 2 (bytes "x\nab cd") 7 = some (bytes "x\nab cd")
      ∧ ∀ j, 2 ≤ j → j < strlen (bytes "x\nab cd") →
          (bytes "x\nab cd").getD j 0 = (bytes "x\nab cd").getD j 0 :=
  ⟨by decide,
   greedy_word_wrap_tail 2 (bytes "x\nab cd") 7 (bytes "x\nab cd") (by decide) 2
     (fun j h1 h2 => by
       have h3 : j < 7 := h2
       have : j = 2 ∨ j = 3 ∨ j = 4 ∨ j = 5 ∨ j = 6 := by omega
       rcases this with e | e | e | e | e <;> subst e <;> decide)
     (Or.inr ⟨by decide, by decide, by decide⟩)⟩

/-- C21 as stated fails.  The source `"a\0\nb"` at width 5 ends with the line `b`
behind its last newline, and the text returned is `"a"`, without that line: the
source is read as a C string.  The source `"x\nab cd"` at width 6 ends with the
line `ab cd` of five bytes, and is returned with the space of that line turned
into a newline: behind a newline of the source the column counter restarts at 2,
so that this line has used up the width at the end of the text. -/
theorem greedy_word_wrap_tail_changed :
    greedy_word_wrap 2 [97, 0, 10, 98] 5 = some [97]
      ∧ greedy_word_wrap 3 (bytes "x\nab cd") 6 = some (bytes "x\nab\ncd")
      ∧ (bytes "x\nab cd").getD 4 0 = 32 ∧ (bytes "x\nab\ncd").getD 4 0 = 10 := by
  decide

end Journal
